import Mathlib

/-!
Verification of the OCR harmonization engine
(`scripts/harmonize_core_rulebook.py`).

Modelling conventions:
* Python `str` is modelled as `List Char`; `String.data` converts literals.
* Python `float` is modelled as `ℚ` (exact rational arithmetic).  The
  display-only roundings in the source (`round(x, 4)` on the stored ratios,
  `round(score, 3)` on the stored score) act on IEEE-754 doubles and are not
  faithfully representable; the fields are modelled at full precision.  All
  comparisons in the source that feed control flow use the same decimal
  constants (0.22, 0.28, 0.45, 45.0), modelled as exact rationals.
* Character classes (`\s`, `\d`, `[a-z0-9]`, `str.isspace`, `str.isalnum`,
  `str.lower`, `str.splitlines`) are modelled on their ASCII fragments, the
  alphabet the page texts live in.
* The presentational `excerpt` strings of the output records are omitted;
  no claim mentions them.
-/

namespace Harmonize

/- Batteries marks the rational-number operations `@[irreducible]`, which
blocks `decide`-style evaluation of the model on concrete inputs; restore
the default reducibility for this development. -/
attribute [local semireducible] Rat.add Rat.mul Rat.sub Rat.inv Rat.ofScientific

/-- ASCII whitespace, the fragment of Python's `\s` / `str.isspace` used here:
space, tab, newline, carriage return, vertical tab, form feed. -/
def isWs (c : Char) : Bool :=
  c = ' ' || c = '\t' || c = '\n' || c = '\r' || c = Char.ofNat 11 || c = Char.ofNat 12

def isLowerAlpha (c : Char) : Bool := 'a' ≤ c && c ≤ 'z'

def isUpperAlpha (c : Char) : Bool := 'A' ≤ c && c ≤ 'Z'

def isDigitC (c : Char) : Bool := '0' ≤ c && c ≤ '9'

/-- The character class of `TOKEN_RE = re.compile(r"[a-z0-9]+")`. -/
def isTok (c : Char) : Bool := isLowerAlpha c || isDigitC c

/-- ASCII fragment of Python `str.isalnum`. -/
def isAlnumPy (c : Char) : Bool := isLowerAlpha c || isUpperAlpha c || isDigitC c

/-- ASCII fragment of Python `str.lower`. -/
def lowerChar (c : Char) : Char :=
  if isUpperAlpha c then Char.ofNat (c.toNat + 32) else c

/-- Python `str.strip()` (left side). -/
def lstripWs (s : List Char) : List Char := s.dropWhile isWs

/-- Python `str.strip()` (right side). -/
def rstripWs (s : List Char) : List Char := (s.reverse.dropWhile isWs).reverse

/-- Python `str.strip()`. -/
def stripWs (s : List Char) : List Char := rstripWs (lstripWs s)

/-- Python `str.strip("\n")`. -/
def stripNL (s : List Char) : List Char :=
  ((s.dropWhile (fun c => c = '\n')).reverse.dropWhile (fun c => c = '\n')).reverse

theorem dropWhileLen {α : Type} (p : α → Bool) (l : List α) :
    (l.dropWhile p).length ≤ l.length := by
  induction l with
  | nil => exact Nat.le_refl _
  | cons c cs ih =>
    rw [List.dropWhile_cons]
    split
    · exact Nat.le_succ_of_le ih
    · exact Nat.le_refl _

/-- `TOKEN_RE.findall`: the maximal runs of `[a-z0-9]` characters
(`cur` accumulates the current run, reversed). -/
def tokenizeAux : List Char → List Char → List (List Char)
  | [], cur => if cur.isEmpty then [] else [cur.reverse]
  | c :: cs, cur =>
    if isTok c then tokenizeAux cs (c :: cur)
    else if cur.isEmpty then tokenizeAux cs [] else cur.reverse :: tokenizeAux cs []

def tokenize (s : List Char) : List (List Char) := tokenizeAux s []

/-- `re.sub(r"\s+", " ", s)`: collapse each maximal whitespace run to one
space (`inRun` records whether the previous character was whitespace). -/
def collapseWsAux : List Char → Bool → List Char
  | [], _ => []
  | c :: cs, inRun =>
    if isWs c then
      if inRun then collapseWsAux cs true else ' ' :: collapseWsAux cs true
    else c :: collapseWsAux cs false

def collapseWs (s : List Char) : List Char := collapseWsAux s false

/-- Python `str.splitlines` (ASCII separators `\n`, `\r`, `\r\n`); a trailing
separator does not produce a final empty line. -/
def splitlinesAux : List Char → List Char → List (List Char)
  | [], acc => if acc.isEmpty then [] else [acc.reverse]
  | '\r' :: '\n' :: r, acc => acc.reverse :: splitlinesAux r []
  | '\n' :: r, acc => acc.reverse :: splitlinesAux r []
  | '\r' :: r, acc => acc.reverse :: splitlinesAux r []
  | c :: r, acc => splitlinesAux r (c :: acc)

def splitlines (s : List Char) : List (List Char) := splitlinesAux s []

/-- `line_signature`: `re.sub(r"\s+", " ", line.strip().lower())`. -/
def line_signature (l : List Char) : List Char :=
  collapseWs ((stripWs l).map lowerChar)

/-- The per-page quality metrics record (`PageMetrics` dataclass). -/
structure PageMetrics where
  char_count : Nat
  word_count : Nat
  line_count : Nat
  empty : Bool
  short : Bool
  symbol_noise_ratio : ℚ
  duplicate_line_ratio : ℚ
  quality_score : ℚ
  low_quality : Bool
  suspicious : Bool
deriving Repr, DecidableEq

/-- `compute_metrics`, translated line by line from the source. -/
def compute_metrics (text : List Char) : PageMetrics :=
  let stripped := stripWs text
  let char_count := stripped.length
  let words := tokenize (stripped.map lowerChar)
  let word_count := words.length
  let lines := ((splitlines stripped).map line_signature).filter (fun l => !l.isEmpty)
  let line_count := lines.length
  let empty := word_count == 0
  let short := decide (word_count < 25)
  let non_space := stripped.filter (fun c => !isWs c)
  let symbol := non_space.filter (fun c => !isAlnumPy c)
  let symbol_noise_ratio : ℚ :=
    if non_space.length = 0 then 1 else (symbol.length : ℚ) / (non_space.length : ℚ)
  let duplicate_line_ratio : ℚ :=
    if 1 < line_count then ((line_count : ℚ) - (lines.dedup.length : ℚ)) / (line_count : ℚ)
    else 0
  let score : ℚ :=
    100 - (if empty then 120 else 0) - (if short then 30 else 0)
      - 60 * symbol_noise_ratio - 40 * duplicate_line_ratio
      + ((min word_count 300 : Nat) : ℚ) / 20
  let low_quality := decide (score < 45) || (short && decide ((28 : ℚ) / 100 < symbol_noise_ratio))
  let suspicious := empty || decide (word_count < 15)
      || decide ((45 : ℚ) / 100 < symbol_noise_ratio)
      || decide ((45 : ℚ) / 100 < duplicate_line_ratio)
  { char_count := char_count
    word_count := word_count
    line_count := line_count
    empty := empty
    short := short
    symbol_noise_ratio := symbol_noise_ratio
    duplicate_line_ratio := duplicate_line_ratio
    quality_score := score
    low_quality := low_quality
    suspicious := suspicious }

/-- `token_set`: the set of lowercase alphanumeric tokens of a text. -/
def token_set (s : List Char) : Finset (List Char) :=
  (tokenize (s.map lowerChar)).toFinset

/-- `jaccard_overlap`. -/
def jaccard_overlap (a b : List Char) : ℚ :=
  let ta := token_set a
  let tb := token_set b
  if ta = ∅ ∧ tb = ∅ then 1
  else if ta = ∅ ∨ tb = ∅ then 0
  else ((ta ∩ tb).card : ℚ) / ((ta ∪ tb).card : ℚ)

/-- The two transcription sources; `macos` is the primary side, `deepseek`
the secondary (cleanup/OCR-markdown) side. -/
inductive Winner where
  | macos
  | deepseek
deriving Repr, DecidableEq

/-- `choose_winner`. -/
def choose_winner (mac_m deep_m : PageMetrics) : Winner × List String :=
  let base :=
    if deep_m.quality_score < mac_m.quality_score then
      (Winner.macos, ["higher_quality_score"])
    else if mac_m.quality_score < deep_m.quality_score then
      (Winner.deepseek, ["higher_quality_score"])
    else
      (Winner.deepseek, ["tie_break_deepseek"])
  match base with
  | (Winner.macos, reasons) =>
    if mac_m.short && !deep_m.short then
      (Winner.macos, reasons ++ ["macos_short_penalty_override"])
    else (Winner.macos, reasons)
  | (Winner.deepseek, reasons) =>
    if deep_m.short && !mac_m.short then
      (Winner.deepseek, reasons ++ ["deepseek_short_penalty_override"])
    else (Winner.deepseek, reasons)

def strL (s : String) : List Char := s.data

/-- Match a literal; on success return the rest of the input. -/
def matchLit : List Char → List Char → Option (List Char)
  | [], s => some s
  | _ :: _, [] => none
  | p :: ps, c :: cs => if p = c then matchLit ps cs else none

def digitVal (c : Char) : Nat := c.toNat - 48

/-- Numeric value of a digit string (`int(match.group(1))`). -/
def digitsVal (l : List Char) : Nat := l.foldl (fun a c => 10 * a + digitVal c) 0

/-- Decimal digits of `n`, least significant first; fuel-based so that it is
structurally recursive (the fuel is irrelevant once it is at least `n`). -/
def digitsRevF : Nat → Nat → List Char
  | _, 0 => []
  | 0, _ + 1 => []
  | f + 1, n + 1 => Char.ofNat (48 + (n + 1) % 10) :: digitsRevF f ((n + 1) / 10)

/-- Python `f"{p}"` for a natural number: decimal digits, no leading zeros. -/
def natDigits (n : Nat) : List Char :=
  if n = 0 then ['0'] else (digitsRevF n n).reverse

/-- The number of characters the trailing `\s*$` of `PAGE_RE` consumes
(Python `$` in MULTILINE mode holds at the end or just before a newline;
greedy `\s*` takes the largest whitespace run with `$` at its end). -/
def trailLen (r : List Char) : Option Nat :=
  let w := r.takeWhile isWs
  let rest := r.dropWhile isWs
  if rest.isEmpty then some w.length
  else
    match w.reverse.findIdx? (fun c => c = '\n') with
    | some j => some (w.length - 1 - j)
    | none => none

/-- Attempt of `PAGE_RE` (`^=====\s*PAGE\s+(\d+)\s*=====\s*$`) at the head of
`s` (the `^` anchor is checked by the caller); on success returns the page
number and the number of characters matched.  Each inner quantifier takes its
maximal run, which is the unique choice because each quantifier's character
class excludes the first character of what must follow it. -/
def matchMarkerAt (s : List Char) : Option (Nat × Nat) :=
  (matchLit (strL "=====") s).bind fun r1 =>
  (matchLit (strL "PAGE") (r1.dropWhile isWs)).bind fun r3 =>
  if (r3.takeWhile isWs).isEmpty then none
  else if ((r3.dropWhile isWs).takeWhile isDigitC).isEmpty then none
  else
    (matchLit (strL "=====")
      (((r3.dropWhile isWs).dropWhile isDigitC).dropWhile isWs)).bind fun r7 =>
    (trailLen r7).map fun k =>
      (digitsVal ((r3.dropWhile isWs).takeWhile isDigitC), s.length - r7.length + k)

/-- `PAGE_RE.finditer`: scan left to right, attempting the pattern at every
line start (position 0 or just after a newline), resuming after the end of
each match.  Returns the text before the first match together with, for each
match in order, its page number and the raw text from its end to the start of
the next match (or the end of input).  Fuel-based for structural recursion;
`matchMarkerAtLen` below shows any fuel `≥ s.length` gives the same result. -/
def scanPF : Nat → List Char → Bool → List Char × List (Nat × List Char)
  | _, [], _ => ([], [])
  | 0, _ :: _, _ => ([], [])
  | f + 1, c :: cs, ls =>
    if ls then
      match matchMarkerAt (c :: cs) with
      | some (n, len) =>
        let rest := (c :: cs).drop len
        let nls := decide (((c :: cs).take len).getLast? = some '\n')
        let res := scanPF f rest nls
        ([], (n, res.1) :: res.2)
      | none =>
        let res := scanPF f cs (decide (c = '\n'))
        (c :: res.1, res.2)
    else
      let res := scanPF f cs (decide (c = '\n'))
      (c :: res.1, res.2)

def scanP (s : List Char) : List Char × List (Nat × List Char) :=
  scanPF s.length s true

/-- Python dict assignment `pages[k] = v`: overwrite in place or append. -/
def upsert (k : Nat) (v : List Char) : List (Nat × List Char) → List (Nat × List Char)
  | [] => [(k, v)]
  | (a, b) :: r => if a = k then (a, v) :: r else (a, b) :: upsert k v r

/-- Python dict lookup (first—and only—binding of the key). -/
def alookup (k : Nat) : List (Nat × List Char) → Option (List Char)
  | [] => none
  | (a, b) :: r => if a = k then some b else alookup k r

/-- `parse_pages`: each match's page number maps to the text strictly between
its marker and the next (or the end), stripped of newlines; later occurrences
of the same page number overwrite earlier ones. -/
def parse_pages (s : List Char) : List (Nat × List Char) :=
  ((scanP s).2.map (fun e => (e.1, stripNL e.2))).foldl (fun m e => upsert e.1 e.2 m) []

/-- The per-page decision record assembled by `harmonize` (the review-queue
entry of the source carries a subset of these fields plus presentational
excerpts, so it is modelled by the same record). -/
structure Decision where
  page : Nat
  winner : Winner
  winner_reasons : List String
  overlap_jaccard : ℚ
  flags : List String
  mac_metrics : PageMetrics
  deep_metrics : PageMetrics
deriving Repr, DecidableEq

/-- `sorted(set(mac_pages) | set(deep_pages))`: the ascending list of the
distinct page numbers of either map. -/
def allPages (mac_pages deep_pages : List (Nat × List Char)) : List Nat :=
  List.insertionSort (fun a b => a ≤ b)
    ((mac_pages.map Prod.fst ++ deep_pages.map Prod.fst).dedup)

/-- The body of the `for p in all_pages` loop of `harmonize`, up to the
decision record. -/
def pageDecision (mac_pages deep_pages : List (Nat × List Char)) (p : Nat) : Decision :=
  let mac_text := (alookup p mac_pages).getD []
  let deep_text := (alookup p deep_pages).getD []
  let mac_m := compute_metrics mac_text
  let deep_m := compute_metrics deep_text
  let overlap := jaccard_overlap mac_text deep_text
  let wr := choose_winner mac_m deep_m
  let chosen_m := if wr.1 = Winner.macos then mac_m else deep_m
  let flags : List String :=
    (if overlap < 22 / 100 ∧ 20 ≤ mac_m.word_count ∧ 20 ≤ deep_m.word_count then
      ["high_disagreement_low_overlap"] else [])
    ++ (if mac_m.low_quality && deep_m.low_quality then ["both_low_quality"] else [])
    ++ (if chosen_m.suspicious then ["chosen_suspicious"] else [])
  { page := p
    winner := wr.1
    winner_reasons := wr.2
    overlap_jaccard := overlap
    flags := flags
    mac_metrics := mac_m
    deep_metrics := deep_m }

/-- `f"===== PAGE {p} ====="`. -/
def markerLine (p : Nat) : List Char :=
  strL "===== PAGE " ++ natDigits p ++ strL " ====="

/-- The winning transcription's text for page `p` (`chosen_text` in the
loop body). -/
def chosenTextOf (mac_pages deep_pages : List (Nat × List Char)) (p : Nat) : List Char :=
  let mac_text := (alookup p mac_pages).getD []
  let deep_text := (alookup p deep_pages).getD []
  if (choose_winner (compute_metrics mac_text) (compute_metrics deep_text)).1
      = Winner.macos then mac_text
  else deep_text

/-- `f"===== PAGE {p} =====\n{chosen_text.strip()}\n"`. -/
def chunkOf (mac_pages deep_pages : List (Nat × List Char)) (p : Nat) : List Char :=
  markerLine p ++ '\n' :: (stripWs (chosenTextOf mac_pages deep_pages p) ++ ['\n'])

/-- Python `"\n".join(chunks)`. -/
def joinNL : List (List Char) → List Char
  | [] => []
  | [c] => c
  | c :: c2 :: cs => c ++ '\n' :: joinNL (c2 :: cs)

structure HarmonizeResult where
  harmonized_text : List Char
  meta_pages : List Decision
  review_queue : List Decision
  total_pages : Nat
  flagged_pages : Nat
deriving Repr, DecidableEq

/-- `harmonize`: one decision per page of the sorted union, merged text
`"\n".join(chunks).strip() + "\n"`, review queue of the flagged pages. -/
def harmonize (mac_pages deep_pages : List (Nat × List Char)) : HarmonizeResult :=
  let pages := allPages mac_pages deep_pages
  let meta := pages.map (pageDecision mac_pages deep_pages)
  let rq := meta.filter (fun d => !d.flags.isEmpty)
  { harmonized_text :=
      stripWs (joinNL (pages.map (chunkOf mac_pages deep_pages))) ++ ['\n']
    meta_pages := meta
    review_queue := rq
    total_pages := pages.length
    flagged_pages := rq.length }

/-! ## Claim C1: winner selection -/

/-- C1. For every pair of page metrics (primary = `macos`, secondary =
`deepseek`), the winner is the side with the strictly higher
`quality_score`, with reason `"higher_quality_score"`; on an exact tie the
secondary side wins with the tie-break reason; and when the chosen winner
is short while the loser is not, the matching short-penalty-override
reason is appended to the reasons list without changing which side is
chosen (the winner depends on the scores alone). -/
theorem winner_selection_spec (a b : PageMetrics) :
    (choose_winner a b).1 =
      (if b.quality_score < a.quality_score then Winner.macos else Winner.deepseek)
    ∧ (choose_winner a b).2 =
      (if a.quality_score ≠ b.quality_score then ["higher_quality_score"]
        else ["tie_break_deepseek"])
      ++ (if (choose_winner a b).1 = Winner.macos ∧ a.short ∧ ¬b.short then
            ["macos_short_penalty_override"]
          else if (choose_winner a b).1 = Winner.deepseek ∧ b.short ∧ ¬a.short then
            ["deepseek_short_penalty_override"]
          else []) := by
  unfold choose_winner
  rcases lt_trichotomy a.quality_score b.quality_score with h | h | h
  · have h1 : ¬ b.quality_score < a.quality_score := not_lt.mpr h.le
    have h2 : a.quality_score ≠ b.quality_score := ne_of_lt h
    cases ha : a.short <;> cases hb : b.short <;>
      simp [h, h1, h2, ha, hb]
  · have h1 : ¬ b.quality_score < a.quality_score := not_lt.mpr h.le
    have h2 : ¬ a.quality_score < b.quality_score := not_lt.mpr h.ge
    cases ha : a.short <;> cases hb : b.short <;>
      simp [h, h1, h2, ha, hb]
  · have h2 : a.quality_score ≠ b.quality_score := ne_of_gt h
    cases ha : a.short <;> cases hb : b.short <;>
      simp [h, h2, ha, hb]

/-! ## Claim C2: the quality-score formula -/

/-- Spec §4.2 step 1–2: tokenize the trimmed text into lowercase
alphanumeric runs; `word_count` is the number of runs. -/
def wordCountSpec (t : List Char) : Nat :=
  (tokenize ((stripWs t).map lowerChar)).length

/-- Spec §4.2 step 4: among non-whitespace characters of the trimmed text,
the ratio of characters that are neither letter nor digit, or 1.0 if there
are none. -/
def symbolNoiseSpec (t : List Char) : ℚ :=
  let ns := (stripWs t).filter (fun c => !isWs c)
  if ns.length = 0 then 1
  else ((ns.filter (fun c => !isAlnumPy c)).length : ℚ) / (ns.length : ℚ)

/-- Spec §4.2 step 3: `(line_count − distinct normalized lines) /
line_count`, or 0 if `line_count ≤ 1`. -/
def duplicateLineSpec (t : List Char) : ℚ :=
  let lines := ((splitlines (stripWs t)).map line_signature).filter (fun l => !l.isEmpty)
  if 1 < lines.length then
    ((lines.length : ℚ) - (lines.dedup.length : ℚ)) / (lines.length : ℚ)
  else 0

/-- C2. For every input text, the computed `quality_score` equals 100, minus
120 if `word_count` is 0, minus 30 if `word_count < 25`, minus 60 times the
symbol-noise ratio, minus 40 times the duplicate-line ratio, plus
`min(word_count, 300) / 20`, with the ingredients computed from the trimmed
text as in spec §4.2 steps 1–4. -/
theorem quality_score_formula (t : List Char) :
    (compute_metrics t).quality_score =
      100 - (if wordCountSpec t = 0 then 120 else 0)
        - (if wordCountSpec t < 25 then 30 else 0)
        - 60 * symbolNoiseSpec t - 40 * duplicateLineSpec t
        + ((min (wordCountSpec t) 300 : Nat) : ℚ) / 20 := by
  simp only [compute_metrics, wordCountSpec, symbolNoiseSpec, duplicateLineSpec,
    beq_iff_eq, decide_eq_true_eq]

/-! ## Claim C6: the overlap estimator -/

/-- C6. The overlap estimator is symmetric, stays within `[0, 1]`, and is
the Jaccard index of the two lowercase alphanumeric token sets, with value
1 when both token sets are empty and 0 when exactly one is empty. -/
theorem jaccard_overlap_spec (a b : List Char) :
    jaccard_overlap a b = jaccard_overlap b a
    ∧ 0 ≤ jaccard_overlap a b ∧ jaccard_overlap a b ≤ 1
    ∧ jaccard_overlap a b =
        (if token_set a = ∅ ∧ token_set b = ∅ then 1
         else if token_set a = ∅ ∨ token_set b = ∅ then 0
         else ((token_set a ∩ token_set b).card : ℚ) /
           ((token_set a ∪ token_set b).card : ℚ)) := by
  refine ⟨?_, ?_, ?_, rfl⟩
  · by_cases ha : token_set a = ∅ <;> by_cases hb : token_set b = ∅ <;>
      simp [jaccard_overlap, ha, hb, Finset.inter_comm, Finset.union_comm]
  · simp only [jaccard_overlap]
    split
    · norm_num
    · split
      · norm_num
      · positivity
  · simp only [jaccard_overlap]
    split
    · norm_num
    · split
      · norm_num
      · rename_i h1 h2
        push_neg at h2
        have hsub : token_set a ∩ token_set b ⊆ token_set a ∪ token_set b :=
          Finset.Subset.trans Finset.inter_subset_left Finset.subset_union_left
        have hne : (token_set a ∪ token_set b).Nonempty := by
          rcases Finset.nonempty_iff_ne_empty.mpr h2.1 with ⟨x, hx⟩
          exact ⟨x, Finset.mem_union_left _ hx⟩
        have hpos : 0 < ((token_set a ∪ token_set b).card : ℚ) := by
          exact_mod_cast Finset.card_pos.mpr hne
        exact (div_le_one hpos).mpr (by exact_mod_cast Finset.card_le_card hsub)

/-! ## Claim C10: metrics of whitespace-only text -/

theorem dropWhileAll {α : Type} {p : α → Bool} :
    ∀ (l : List α), (∀ c ∈ l, p c = true) → l.dropWhile p = []
  | [], _ => rfl
  | c :: cs, h => by
    rw [List.dropWhile_cons, if_pos (h c (by simp))]
    exact dropWhileAll cs (fun x hx => h x (by simp [hx]))

/-- C10. On a text that is empty or all whitespace, the metrics engine
returns `word_count = 0`, `symbol_noise_ratio = 1`,
`duplicate_line_ratio = 0`, `quality_score = -110` exactly, and `empty`,
`short`, `low_quality`, `suspicious` all true. -/
theorem whitespace_metrics (t : List Char) (h : ∀ c ∈ t, isWs c = true) :
    (compute_metrics t).word_count = 0
    ∧ (compute_metrics t).symbol_noise_ratio = 1
    ∧ (compute_metrics t).duplicate_line_ratio = 0
    ∧ (compute_metrics t).quality_score = -110
    ∧ (compute_metrics t).empty = true
    ∧ (compute_metrics t).short = true
    ∧ (compute_metrics t).low_quality = true
    ∧ (compute_metrics t).suspicious = true := by
  have hl : lstripWs t = [] := dropWhileAll t h
  have hs : stripWs t = [] := by
    unfold stripWs rstripWs
    rw [hl]
    rfl
  simp [compute_metrics, hs, tokenize, tokenizeAux, splitlines, splitlinesAux]
  norm_num

/-- Witness for C10 at the concrete all-whitespace text `"  \n "`. -/
theorem whitespace_metrics_witness :
    (∀ c ∈ strL "  \n ", isWs c = true)
    ∧ (compute_metrics (strL "  \n ")).quality_score = -110 :=
  ⟨by decide, (whitespace_metrics (strL "  \n ") (by decide)).2.2.2.1⟩

/-! ## Claim C5: primary-only mode -/

theorem metrics_wc_eq (t : List Char) :
    (compute_metrics t).word_count = wordCountSpec t := rfl

theorem metrics_score_eq (t : List Char) :
    (compute_metrics t).quality_score =
      100 - (if wordCountSpec t = 0 then 120 else 0)
        - (if wordCountSpec t < 25 then 30 else 0)
        - 60 * symbolNoiseSpec t - 40 * duplicateLineSpec t
        + ((min (wordCountSpec t) 300 : Nat) : ℚ) / 20 := by
  simp only [compute_metrics, wordCountSpec, symbolNoiseSpec, duplicateLineSpec,
    beq_iff_eq, decide_eq_true_eq]

theorem snr_nonneg (t : List Char) : 0 ≤ symbolNoiseSpec t := by
  simp only [symbolNoiseSpec]
  split
  · norm_num
  · positivity

theorem snr_le_one (t : List Char) : symbolNoiseSpec t ≤ 1 := by
  simp only [symbolNoiseSpec]
  split
  · exact le_refl 1
  · rename_i hne
    have hpos : 0 < ((((stripWs t).filter (fun c => !isWs c)).length : ℚ)) := by
      have : 0 < ((stripWs t).filter (fun c => !isWs c)).length := Nat.pos_of_ne_zero hne
      exact_mod_cast this
    exact (div_le_one hpos).mpr (by exact_mod_cast List.length_filter_le _ _)

theorem dlr_nonneg (t : List Char) : 0 ≤ duplicateLineSpec t := by
  simp only [duplicateLineSpec]
  split
  · rename_i hgt
    have hded : (((((splitlines (stripWs t)).map line_signature).filter
        (fun l => !l.isEmpty)).dedup).length : ℚ)
        ≤ ((((splitlines (stripWs t)).map line_signature).filter
        (fun l => !l.isEmpty)).length : ℚ) := by
      exact_mod_cast (List.dedup_sublist _).length_le
    have hpos : (0:ℚ) < ((((splitlines (stripWs t)).map line_signature).filter
        (fun l => !l.isEmpty)).length : ℚ) := by
      exact_mod_cast Nat.lt_of_lt_of_le Nat.zero_lt_one hgt.le
    apply div_nonneg _ hpos.le
    linarith
  · exact le_refl 0

theorem dlr_le_one (t : List Char) : duplicateLineSpec t ≤ 1 := by
  simp only [duplicateLineSpec]
  split
  · rename_i hgt
    have hpos : (0:ℚ) < ((((splitlines (stripWs t)).map line_signature).filter
        (fun l => !l.isEmpty)).length : ℚ) := by
      exact_mod_cast Nat.lt_of_lt_of_le Nat.zero_lt_one hgt.le
    apply (div_le_one hpos).mpr
    have : (0:ℚ) ≤ (((((splitlines (stripWs t)).map line_signature).filter
        (fun l => !l.isEmpty)).dedup).length : ℚ) := by positivity
    linarith
  · norm_num

/-- A text with at least one token always outscores `-110`, the score of an
empty text. -/
theorem score_gt_m110 (t : List Char) (h : wordCountSpec t ≠ 0) :
    -110 < (compute_metrics t).quality_score := by
  rw [metrics_score_eq, if_neg h]
  have h1 := snr_nonneg t
  have h2 := snr_le_one t
  have h3 := dlr_nonneg t
  have h4 := dlr_le_one t
  have hb : (0:ℚ) ≤ ((min (wordCountSpec t) 300 : Nat) : ℚ) / 20 := by positivity
  by_cases h25 : wordCountSpec t < 25 <;> simp only [h25, if_true, if_false] <;> linarith

/-- Helper shared by C1 and C5: the chosen winner depends only on the two
quality scores. -/
theorem choose_winner_fst (a b : PageMetrics) :
    (choose_winner a b).1 =
      (if b.quality_score < a.quality_score then Winner.macos else Winner.deepseek) := by
  unfold choose_winner
  rcases lt_trichotomy a.quality_score b.quality_score with h | h | h
  · have h1 : ¬ b.quality_score < a.quality_score := not_lt.mpr h.le
    cases ha : a.short <;> cases hb : b.short <;> simp [h, h1, ha, hb]
  · have h1 : ¬ b.quality_score < a.quality_score := not_lt.mpr h.le
    have h2 : ¬ a.quality_score < b.quality_score := not_lt.mpr h.ge
    cases ha : a.short <;> cases hb : b.short <;> simp [h1, h2, ha, hb]
  · cases ha : a.short <;> cases hb : b.short <;> simp [h, ha, hb]

/-- Membership in the sorted page-number union. -/
theorem mem_allPages (m d : List (Nat × List Char)) (p : Nat) :
    p ∈ allPages m d ↔ p ∈ m.map Prod.fst ∨ p ∈ d.map Prod.fst := by
  unfold allPages
  rw [List.Perm.mem_iff (List.perm_insertionSort _ _)]
  simp [List.mem_dedup]

/-- C5 (amended). When the secondary page map is empty, every page of the
primary map whose primary text contains at least one alphanumeric token is
won by the primary transcription.  (A primary page with no token ties with
the absent secondary at score `-110`, or scores below it, and falls to the
secondary — see the counterexample.) -/
theorem primary_only_mode (m : List (Nat × List Char)) (p : Nat)
    (hp : p ∈ m.map Prod.fst)
    (hw : (compute_metrics ((alookup p m).getD [])).word_count ≠ 0) :
    pageDecision m [] p ∈ (harmonize m []).meta_pages
    ∧ (pageDecision m [] p).winner = Winner.macos := by
  constructor
  · have hmem : p ∈ allPages m [] := (mem_allPages m [] p).mpr (Or.inl hp)
    exact List.mem_map_of_mem _ hmem
  · show (choose_winner (compute_metrics ((alookup p m).getD []))
      (compute_metrics ((alookup p ([] : List (Nat × List Char))).getD []))).1 = Winner.macos
    rw [choose_winner_fst]
    have hnil : (alookup p ([] : List (Nat × List Char))).getD [] = [] := rfl
    have hempty : (compute_metrics ([] : List Char)).quality_score = -110 := by decide
    have hlt : (compute_metrics ((alookup p ([] : List (Nat × List Char))).getD
        [])).quality_score
        < (compute_metrics ((alookup p m).getD [])).quality_score := by
      rw [hnil, hempty]
      exact score_gt_m110 _ (by rw [← metrics_wc_eq]; exact hw)
    simp [hlt]

/-- Witness for C5 at the one-page primary map `{1 ↦ "hello"}`. -/
theorem primary_only_mode_witness :
    (1 ∈ ([(1, strL "hello")] : List (Nat × List Char)).map Prod.fst)
    ∧ (pageDecision [(1, strL "hello")] [] 1).winner = Winner.macos :=
  ⟨by decide, (primary_only_mode [(1, strL "hello")] 1 (by decide) (by decide)).2⟩

/-- Counterexample to C5 as stated: with primary map `{1 ↦ ""}` and an empty
secondary map, page 1 lies in the primary map yet its winner is the
secondary side (both sides score exactly `-110` and the tie breaks toward
the secondary). -/
theorem primary_only_mode_counterexample :
    ((harmonize [(1, ([] : List Char))] []).meta_pages.map
      (fun dec => (dec.page, dec.winner, dec.winner_reasons)))
      = [(1, Winner.deepseek, ["tie_break_deepseek"])] := by decide

/-! ## Claims C3 and C4: structure of the merged result -/

theorem allPages_nodup (m d : List (Nat × List Char)) : (allPages m d).Nodup := by
  unfold allPages
  exact ((List.perm_insertionSort _ _).nodup_iff).mpr (List.nodup_dedup _)

theorem allPages_sorted (m d : List (Nat × List Char)) :
    List.Sorted (· < ·) (allPages m d) := by
  have h1 : List.Sorted (fun a b => a ≤ b) (allPages m d) :=
    List.sorted_insertionSort _ _
  have h2 := allPages_nodup m d
  exact (h1.and h2).imp (fun h => lt_of_le_of_ne h.1 h.2)

/-- C3. The merged output consists of exactly one marker-headed section per
page number of the union of the two input maps, in strictly ascending page
order regardless of the input maps' ordering, and `total_pages` is the size
of that union. -/
theorem merged_page_sections (m d : List (Nat × List Char)) :
    List.Sorted (· < ·) (allPages m d)
    ∧ (allPages m d).Nodup
    ∧ (∀ p, p ∈ allPages m d ↔ p ∈ m.map Prod.fst ∨ p ∈ d.map Prod.fst)
    ∧ (harmonize m d).total_pages
      = ((m.map Prod.fst).toFinset ∪ (d.map Prod.fst).toFinset).card
    ∧ (harmonize m d).harmonized_text
      = stripWs (joinNL ((allPages m d).map (chunkOf m d))) ++ ['\n']
    ∧ (∀ p, chunkOf m d p
      = markerLine p ++ '\n' :: (stripWs (chosenTextOf m d p) ++ ['\n'])) := by
  refine ⟨allPages_sorted m d, allPages_nodup m d, mem_allPages m d, ?_, rfl, fun p => rfl⟩
  calc (harmonize m d).total_pages = (allPages m d).length := rfl
    _ = ((m.map Prod.fst ++ d.map Prod.fst).dedup).length :=
        (List.perm_insertionSort _ _).length_eq
    _ = ((m.map Prod.fst ++ d.map Prod.fst).toFinset).card := (List.card_toFinset _).symm
    _ = ((m.map Prod.fst).toFinset ∪ (d.map Prod.fst).toFinset).card := by
        rw [List.toFinset_append]

theorem meta_pages_map_page (m d : List (Nat × List Char)) :
    (harmonize m d).meta_pages.map Decision.page = allPages m d := by
  show ((allPages m d).map (pageDecision m d)).map Decision.page = allPages m d
  rw [List.map_map]
  exact List.map_id'' (fun p => rfl) _

/-- C4. Per page: the flag `"high_disagreement_low_overlap"` is present iff
overlap < 0.22 and both sides have at least 20 words; `"both_low_quality"`
iff both sides are low quality; `"chosen_suspicious"` iff the winning side's
metrics are suspicious; the flags appear in that priority order; the review
queue is exactly the pages with nonempty flags, in ascending page order, and
`flagged_pages` is its length. -/
theorem review_flags_spec (m d : List (Nat × List Char)) :
    (∀ p,
      ("high_disagreement_low_overlap" ∈ (pageDecision m d p).flags
        ↔ (pageDecision m d p).overlap_jaccard < 22 / 100
          ∧ 20 ≤ (pageDecision m d p).mac_metrics.word_count
          ∧ 20 ≤ (pageDecision m d p).deep_metrics.word_count)
      ∧ ("both_low_quality" ∈ (pageDecision m d p).flags
        ↔ (pageDecision m d p).mac_metrics.low_quality
          ∧ (pageDecision m d p).deep_metrics.low_quality)
      ∧ ("chosen_suspicious" ∈ (pageDecision m d p).flags
        ↔ (if (pageDecision m d p).winner = Winner.macos then
            (pageDecision m d p).mac_metrics
          else (pageDecision m d p).deep_metrics).suspicious)
      ∧ (pageDecision m d p).flags =
          (if (pageDecision m d p).overlap_jaccard < 22 / 100
              ∧ 20 ≤ (pageDecision m d p).mac_metrics.word_count
              ∧ 20 ≤ (pageDecision m d p).deep_metrics.word_count then
            ["high_disagreement_low_overlap"] else [])
          ++ (if (pageDecision m d p).mac_metrics.low_quality
                ∧ (pageDecision m d p).deep_metrics.low_quality then
              ["both_low_quality"] else [])
          ++ (if (if (pageDecision m d p).winner = Winner.macos then
                  (pageDecision m d p).mac_metrics
                else (pageDecision m d p).deep_metrics).suspicious then
              ["chosen_suspicious"] else []))
    ∧ (harmonize m d).review_queue
      = (harmonize m d).meta_pages.filter (fun dec => !dec.flags.isEmpty)
    ∧ List.Sorted (· < ·) ((harmonize m d).review_queue.map Decision.page)
    ∧ (harmonize m d).flagged_pages = (harmonize m d).review_queue.length := by
  refine ⟨fun p => ?_, rfl, ?_, rfl⟩
  · have hflags : (pageDecision m d p).flags =
        (if (pageDecision m d p).overlap_jaccard < 22 / 100
            ∧ 20 ≤ (pageDecision m d p).mac_metrics.word_count
            ∧ 20 ≤ (pageDecision m d p).deep_metrics.word_count then
          ["high_disagreement_low_overlap"] else [])
        ++ (if (pageDecision m d p).mac_metrics.low_quality
              && (pageDecision m d p).deep_metrics.low_quality then
            ["both_low_quality"] else [])
        ++ (if (if (pageDecision m d p).winner = Winner.macos then
                (pageDecision m d p).mac_metrics
              else (pageDecision m d p).deep_metrics).suspicious then
            ["chosen_suspicious"] else []) := rfl
    refine ⟨?_, ?_, ?_, ?_⟩ <;> rw [hflags] <;>
      by_cases h1 : (pageDecision m d p).overlap_jaccard < 22 / 100
          ∧ 20 ≤ (pageDecision m d p).mac_metrics.word_count
          ∧ 20 ≤ (pageDecision m d p).deep_metrics.word_count <;>
      cases h2m : (pageDecision m d p).mac_metrics.low_quality <;>
      cases h2d : (pageDecision m d p).deep_metrics.low_quality <;>
      cases h3 : (if (pageDecision m d p).winner = Winner.macos then
          (pageDecision m d p).mac_metrics
        else (pageDecision m d p).deep_metrics).suspicious <;>
      simp +decide [h1, h2m, h2d, h3]
  · have hsorted := allPages_sorted m d
    have hmeta : List.Pairwise (fun a b : Decision => a.page < b.page)
        (harmonize m d).meta_pages := by
      show List.Pairwise _ ((allPages m d).map (pageDecision m d))
      rw [List.pairwise_map]
      exact hsorted
    have hfilt := hmeta.filter (fun dec => !dec.flags.isEmpty)
    rw [show (harmonize m d).review_queue
      = (harmonize m d).meta_pages.filter (fun dec => !dec.flags.isEmpty) from rfl]
    exact List.pairwise_map.mpr hfilt

/-! ## Claim C8: last write wins in the page parser -/

theorem alookup_upsert : ∀ (mp : List (Nat × List Char)) (k a : Nat) (v : List Char),
    alookup k (upsert a v mp) = if a = k then some v else alookup k mp
  | [], k, a, v => by by_cases h : a = k <;> simp [upsert, alookup, h]
  | (x, y) :: r, k, a, v => by
    by_cases hxa : x = a
    · subst hxa
      by_cases hk : x = k <;> simp [upsert, alookup, hk]
    · have ih := alookup_upsert r k a v
      by_cases hk : a = k
      · subst hk
        simp [upsert, alookup, hxa, Ne.symm hxa, ih]
      · by_cases hxk : x = k
        · have hka : ¬ k = a := fun h2 => hxa (hxk.trans h2)
          simp [upsert, alookup, hxa, hk, hxk, hka, ih]
        · simp [upsert, alookup, hxa, hk, hxk, ih]

theorem foldl_upsert_alookup :
    ∀ (l : List (Nat × List Char)) (acc : List (Nat × List Char)) (k : Nat),
      alookup k (l.foldl (fun mp e => upsert e.1 e.2 mp) acc)
        = ((l.filter (fun e => e.1 == k)).getLast?.map (fun e => some e.2)).getD
            (alookup k acc)
  | [], acc, k => rfl
  | e :: t, acc, k => by
    rw [List.foldl_cons, foldl_upsert_alookup t _ k, alookup_upsert]
    by_cases hfk : (t.filter (fun x => x.1 == k)) = []
    · rw [hfk]
      by_cases hek : e.1 = k <;> simp [List.filter_cons, hek, hfk]
    · have hlast : ((e :: t).filter (fun x => x.1 == k)).getLast?
          = (t.filter (fun x => x.1 == k)).getLast? := by
        rcases List.exists_cons_of_ne_nil hfk with ⟨a2, t2, ht⟩
        by_cases hek : e.1 = k <;> simp [List.filter_cons, hek, ht]
      rw [hlast]
      rcases hgl : (t.filter (fun x => x.1 == k)).getLast? with _ | b
      · exact absurd (List.getLast?_eq_none_iff.mp hgl) hfk
      · rw [hgl]
        rfl

/-- C8. Whenever a page number occurs in more than one recognized marker,
the parser maps it to the newline-trimmed text that follows the last of
those markers: earlier bodies are overwritten, never merged. -/
theorem parse_pages_last_write_wins (s : List Char) (n : Nat)
    (hdup : 2 ≤ ((scanP s).2.filter (fun e => e.1 == n)).length) :
    alookup n (parse_pages s)
      = ((scanP s).2.filter (fun e => e.1 == n)).getLast?.map
          (fun e => stripNL e.2) := by
  unfold parse_pages
  rw [foldl_upsert_alookup]
  rw [List.filter_map]
  have hcomp : ((fun e : Nat × List Char => e.1 == n) ∘
      (fun e : Nat × List Char => (e.1, stripNL e.2)))
      = (fun e : Nat × List Char => e.1 == n) := rfl
  rw [hcomp, List.getLast?_map]
  rcases hgl : ((scanP s).2.filter (fun e => e.1 == n)).getLast? with _ | b
  · rw [hgl]
    rfl
  · rw [hgl]
    rfl

/-- Witness for C8: page 1 occurs twice; the parser keeps the second body. -/
theorem parse_pages_last_write_wins_witness :
    2 ≤ ((scanP (strL "===== PAGE 1 =====\na\n===== PAGE 1 =====\nb")).2.filter
        (fun e => e.1 == 1)).length
    ∧ alookup 1 (parse_pages (strL "===== PAGE 1 =====\na\n===== PAGE 1 =====\nb"))
      = ((scanP (strL "===== PAGE 1 =====\na\n===== PAGE 1 =====\nb")).2.filter
          (fun e => e.1 == 1)).getLast?.map (fun e => stripNL e.2) :=
  ⟨by decide,
   parse_pages_last_write_wins (strL "===== PAGE 1 =====\na\n===== PAGE 1 =====\nb") 1
     (by decide)⟩

/-! ## Claim C7: what the page parser recognizes -/

theorem takeWhileAppAll {α : Type} (p : α → Bool) (r : List α) :
    ∀ (l : List α), (∀ c ∈ l, p c = true) → (l ++ r).takeWhile p = l ++ r.takeWhile p
  | [], _ => rfl
  | c :: t, h => by
    rw [List.cons_append, List.takeWhile_cons, if_pos (h c (by simp)),
      takeWhileAppAll p r t (fun x hx => h x (by simp [hx])), List.cons_append]

theorem dropWhileAppAll {α : Type} (p : α → Bool) (r : List α) :
    ∀ (l : List α), (∀ c ∈ l, p c = true) → (l ++ r).dropWhile p = r.dropWhile p
  | [], _ => rfl
  | c :: t, h => by
    rw [List.cons_append, List.dropWhile_cons, if_pos (h c (by simp))]
    exact dropWhileAppAll p r t (fun x hx => h x (by simp [hx]))

theorem matchLit_eq_some : ∀ {p s r : List Char}, matchLit p s = some r → s = p ++ r
  | [], s, r, h => by
    cases h
    rfl
  | p₀ :: ps, [], r, h => by cases h
  | p₀ :: ps, c :: cs, r, h => by
    by_cases hpc : p₀ = c
    · rw [matchLit, if_pos hpc] at h
      rw [List.cons_append, ← hpc, matchLit_eq_some h]
    · rw [matchLit, if_neg hpc] at h
      cases h

theorem matchLit_self : ∀ (p r : List Char), matchLit p (p ++ r) = some r
  | [], r => rfl
  | p₀ :: ps, r => by rw [List.cons_append, matchLit, if_pos rfl, matchLit_self ps r]

theorem mem_takeWhile_ws {p : Char → Bool} {l : List Char} :
    ∀ c ∈ l.takeWhile p, p c = true := fun _ hc => List.mem_takeWhile_imp hc

/-- Soundness of the trailing `\s*$`: the consumed characters are whitespace
and the match ends at the end of input or just before a newline. -/
theorem trailLen_sound {r : List Char} {k : Nat} (h : trailLen r = some k) :
    (∀ c ∈ r.take k, isWs c = true) ∧ k ≤ r.length
      ∧ (r.drop k = [] ∨ (r.drop k).head? = some '\n') := by
  have hwall : ∀ c ∈ r.takeWhile isWs, isWs c = true := fun _ hc => List.mem_takeWhile_imp hc
  have hrsplit : r.takeWhile isWs ++ r.dropWhile isWs = r :=
    List.takeWhile_append_dropWhile (p := isWs) (l := r)
  revert h hwall hrsplit
  unfold trailLen
  generalize hw : r.takeWhile isWs = w
  generalize hu : r.dropWhile isWs = u
  intro h0 hwall hrsplit
  have h : (if u.isEmpty = true then some w.length
      else match w.reverse.findIdx? (fun c => decide (c = '\n')) with
        | some j => some (w.length - 1 - j)
        | none => none) = some k := h0
  by_cases hre : u.isEmpty
  · rw [if_pos hre] at h
    cases h
    have hr : r = w := by rw [← hrsplit, List.isEmpty_iff.mp hre, List.append_nil]
    subst hr
    refine ⟨?_, ?_, Or.inl ?_⟩
    · intro c hc
      exact hwall c (List.mem_of_mem_take hc)
    · exact le_refl _
    · exact List.drop_length _
  · rw [if_neg hre] at h
    cases hfi : w.reverse.findIdx? (fun c => decide (c = '\n')) with
    | none => rw [hfi] at h; cases h
    | some j =>
      rw [hfi] at h
      cases h
      rcases List.findIdx?_eq_some_iff_getElem.mp hfi with ⟨hjlt, hjw, -⟩
      rw [List.length_reverse] at hjlt
      have hklt : w.length - 1 - j < w.length := by omega
      have hrev := List.getElem_reverse (l := w) (i := j)
        (by rw [List.length_reverse]; exact hjlt)
      rw [hrev] at hjw
      have hwk := of_decide_eq_true hjw
      have hkle : w.length - 1 - j ≤ w.length := le_of_lt hklt
      refine ⟨?_, ?_, Or.inr ?_⟩
      · intro c hc
        rw [← hrsplit, List.take_append_of_le_length hkle] at hc
        exact hwall c (List.mem_of_mem_take hc)
      · rw [← hrsplit, List.length_append]
        omega
      · rw [← hrsplit, List.drop_append_of_le_length hkle]
        have hdne : w.drop (w.length - 1 - j) ≠ [] := by
          rw [← List.length_pos_iff_ne_nil, List.length_drop]
          omega
        rw [List.head?_append_of_ne_nil _ hdne, List.head?_drop,
          List.getElem?_eq_getElem hklt, hwk]

/-- Soundness of a `PAGE_RE` match attempt: any recognized region decomposes
as five equals signs, optional whitespace, `PAGE`, mandatory whitespace, a
nonempty digit run, optional whitespace, five equals signs and trailing
whitespace, with the match ending at the end of input or just before a
newline; the page number is the value of the digit run. -/
theorem matchMarkerAt_sound {s : List Char} {n len : Nat}
    (h : matchMarkerAt s = some (n, len)) :
    ∃ w1 w2 ds w3 w4 rest,
      s = strL "=====" ++ w1 ++ strL "PAGE" ++ w2 ++ ds ++ w3
          ++ strL "=====" ++ w4 ++ rest
      ∧ (∀ c ∈ w1, isWs c = true) ∧ w2 ≠ [] ∧ (∀ c ∈ w2, isWs c = true)
      ∧ ds ≠ [] ∧ (∀ c ∈ ds, isDigitC c = true)
      ∧ (∀ c ∈ w3, isWs c = true) ∧ (∀ c ∈ w4, isWs c = true)
      ∧ n = digitsVal ds
      ∧ len = 14 + w1.length + w2.length + ds.length + w3.length + w4.length
      ∧ (rest = [] ∨ rest.head? = some '\n') := by
  unfold matchMarkerAt at h
  rcases Option.bind_eq_some.mp h with ⟨r1, h1, h⟩
  rcases Option.bind_eq_some.mp h with ⟨r3, h3, h⟩
  by_cases hw2 : ((r3.takeWhile isWs).isEmpty : Bool)
  · rw [if_pos hw2] at h
    cases h
  rw [if_neg hw2] at h
  by_cases hds : (((r3.dropWhile isWs).takeWhile isDigitC).isEmpty : Bool)
  · rw [if_pos hds] at h
    cases h
  rw [if_neg hds] at h
  rcases Option.bind_eq_some.mp h with ⟨r7, h7, h⟩
  rcases Option.map_eq_some'.mp h with ⟨k, hk, hpair⟩
  rcases trailLen_sound hk with ⟨hw4, hkle, hrest⟩
  have e1 : s = strL "=====" ++ r1 := matchLit_eq_some h1
  have e2 : r1 = r1.takeWhile isWs ++ r1.dropWhile isWs :=
    (List.takeWhile_append_dropWhile (p := isWs) (l := r1)).symm
  have e3 : r1.dropWhile isWs = strL "PAGE" ++ r3 := matchLit_eq_some h3
  have e4 : r3 = r3.takeWhile isWs ++ r3.dropWhile isWs :=
    (List.takeWhile_append_dropWhile (p := isWs) (l := r3)).symm
  have e5 : r3.dropWhile isWs = (r3.dropWhile isWs).takeWhile isDigitC
      ++ (r3.dropWhile isWs).dropWhile isDigitC :=
    (List.takeWhile_append_dropWhile (p := isDigitC) (l := r3.dropWhile isWs)).symm
  have e6 : (r3.dropWhile isWs).dropWhile isDigitC
      = ((r3.dropWhile isWs).dropWhile isDigitC).takeWhile isWs
        ++ ((r3.dropWhile isWs).dropWhile isDigitC).dropWhile isWs :=
    (List.takeWhile_append_dropWhile (p := isWs)
      (l := (r3.dropWhile isWs).dropWhile isDigitC)).symm
  have e7 : ((r3.dropWhile isWs).dropWhile isDigitC).dropWhile isWs
      = strL "=====" ++ r7 := matchLit_eq_some h7
  have e8 : r7 = r7.take k ++ r7.drop k := (List.take_append_drop k r7).symm
  have hlenk : (r7.take k).length = k := List.length_take_of_le hkle
  refine ⟨r1.takeWhile isWs, r3.takeWhile isWs,
    (r3.dropWhile isWs).takeWhile isDigitC,
    ((r3.dropWhile isWs).dropWhile isDigitC).takeWhile isWs,
    r7.take k, r7.drop k, ?_, ?_, ?_, ?_, ?_, ?_, ?_, ?_, ?_, ?_, ?_⟩
  · rw [e1]
    conv_lhs => rw [e2, e3, e4, e5, e6, e7, e8]
    simp [List.append_assoc]
  · exact fun c hc => List.mem_takeWhile_imp hc
  · intro hnil
    rw [← List.isEmpty_iff] at hnil
    exact hw2 hnil
  · exact fun c hc => List.mem_takeWhile_imp hc
  · intro hnil
    rw [← List.isEmpty_iff] at hnil
    exact hds hnil
  · exact fun c hc => List.mem_takeWhile_imp hc
  · exact fun c hc => List.mem_takeWhile_imp hc
  · exact hw4
  · exact (congrArg Prod.fst hpair).symm
  · have hn : (digitsVal ((r3.dropWhile isWs).takeWhile isDigitC),
        s.length - r7.length + k) = (n, len) := hpair
    have hlen : len = s.length - r7.length + k := (congrArg Prod.snd hn).symm
    have hslen : s.length = 14 + (r1.takeWhile isWs).length + (r3.takeWhile isWs).length
        + ((r3.dropWhile isWs).takeWhile isDigitC).length
        + (((r3.dropWhile isWs).dropWhile isDigitC).takeWhile isWs).length
        + r7.length := by
      rw [e1]
      conv_lhs => rw [e2, e3, e4, e5, e6, e7]
      simp [List.length_append, strL]
      omega
    rw [hlen, hslen, hlenk]
    omega
  · exact hrest

/-- Any successful match consumes at least one and at most all characters. -/
theorem matchMarkerAtLen {s : List Char} {n len : Nat}
    (h : matchMarkerAt s = some (n, len)) : 1 ≤ len ∧ len ≤ s.length := by
  rcases matchMarkerAt_sound h with
    ⟨w1, w2, ds, w3, w4, rest, hs, -, -, -, -, -, -, -, -, hlen, -⟩
  constructor
  · omega
  · rw [hs]
    simp [List.length_append, strL]
    omega

theorem digitsRevF_foldr : ∀ (f n : Nat), n ≤ f →
    (digitsRevF f n).foldr (fun c a => 10 * a + digitVal c) 0 = n
  | f, 0, _ => by cases f <;> rfl
  | 0, n + 1, h => absurd h (by omega)
  | f + 1, n + 1, h => by
    show (Char.ofNat (48 + (n + 1) % 10)
        :: digitsRevF f ((n + 1) / 10)).foldr (fun c a => 10 * a + digitVal c) 0 = n + 1
    rw [List.foldr_cons, digitsRevF_foldr f ((n + 1) / 10)
      (by have := Nat.div_lt_self (Nat.succ_pos n) (by norm_num : 1 < 10); omega)]
    have hr : (n + 1) % 10 < 10 := Nat.mod_lt _ (by norm_num)
    have hd : digitVal (Char.ofNat (48 + (n + 1) % 10)) = (n + 1) % 10 := by
      set r := (n + 1) % 10 with hrdef
      interval_cases r <;> decide
    rw [hd]
    omega

theorem digitsRevF_digits : ∀ (f n : Nat), ∀ c ∈ digitsRevF f n, isDigitC c = true
  | f, 0 => by cases f <;> (intro c hc; cases hc)
  | 0, _ + 1 => by intro c hc; cases hc
  | f + 1, n + 1 => by
    intro c hc
    rcases List.mem_cons.mp hc with h | h
    · subst h
      have hr : (n + 1) % 10 < 10 := Nat.mod_lt _ (by norm_num)
      set r := (n + 1) % 10 with hrdef
      interval_cases r <;> decide
    · exact digitsRevF_digits f ((n + 1) / 10) c h

theorem natDigits_val (n : Nat) : digitsVal (natDigits n) = n := by
  unfold natDigits
  by_cases h : n = 0
  · subst h
    decide
  · rw [if_neg h]
    unfold digitsVal
    rw [List.foldl_reverse]
    exact digitsRevF_foldr n n (le_refl n)

theorem natDigits_digits (n : Nat) : ∀ c ∈ natDigits n, isDigitC c = true := by
  unfold natDigits
  by_cases h : n = 0
  · subst h
    intro c hc
    rcases List.mem_singleton.mp hc with rfl
    decide
  · rw [if_neg h]
    intro c hc
    exact digitsRevF_digits n n c (List.mem_reverse.mp hc)

theorem natDigits_ne_nil (n : Nat) : natDigits n ≠ [] := by
  unfold natDigits
  by_cases h : n = 0
  · rw [if_pos h]
    exact List.cons_ne_nil _ _
  · rw [if_neg h]
    rcases n with _ | m
    · exact absurd rfl h
    · show (Char.ofNat (48 + (m + 1) % 10) :: digitsRevF m ((m + 1) / 10)).reverse ≠ []
      simp

theorem wsNotDigit {c : Char} (hd : isDigitC c = true) : isWs c = false := by
  by_contra hws
  rw [Bool.not_eq_false] at hws
  unfold isWs at hws
  simp only [Bool.or_eq_true, decide_eq_true_eq] at hws
  rcases hws with ((((h | h) | h) | h) | h) | h <;> subst h <;>
    exact absurd hd (by decide)

/-- Matching the regex against a constructed marker line: it always succeeds
with the marker's own page number, and the trailing `\s*$` behaviour is
entirely determined by what follows the marker. -/
theorem matchMarkerAt_marker (p : Nat) (rest : List Char) :
    matchMarkerAt (markerLine p ++ rest)
      = (trailLen rest).map fun k => (p, (markerLine p).length + k) := by
  rcases List.exists_cons_of_ne_nil (natDigits_ne_nil p) with ⟨d0, dt, hd⟩
  have hd0 : isDigitC d0 = true := natDigits_digits p d0 (by rw [hd]; simp)
  have hassoc : markerLine p ++ rest
      = strL "=====" ++ (' ' :: (strL "PAGE" ++ (' ' :: (natDigits p
          ++ (' ' :: (strL "=====" ++ rest)))))) := by
    rw [markerLine, List.append_assoc, List.append_assoc]
    rfl
  rw [hassoc]
  unfold matchMarkerAt
  rw [matchLit_self]
  have hb1 : ∀ (a : List Char) (f : List Char → Option (Nat × Nat)),
      (some a).bind f = f a := fun _ _ => rfl
  rw [hb1]
  have hwsSpace : isWs ' ' = true := by decide
  have hwsP : isWs 'P' = false := by decide
  have hwsEq : isWs '=' = false := by decide
  have hdgSpace : isDigitC ' ' = false := by decide
  have hwsD0 : isWs d0 = false := wsNotDigit hd0
  have hdws : (' ' :: (strL "PAGE" ++ (' ' :: (natDigits p
      ++ (' ' :: (strL "=====" ++ rest)))))).dropWhile isWs
      = strL "PAGE" ++ (' ' :: (natDigits p ++ (' ' :: (strL "=====" ++ rest)))) := by
    rw [List.dropWhile_cons, hwsSpace, if_pos rfl]
    show ('P' :: (strL "AGE" ++ (' ' :: (natDigits p
      ++ (' ' :: (strL "=====" ++ rest)))))).dropWhile isWs = _
    rw [List.dropWhile_cons, hwsP, if_neg Bool.false_ne_true]
    rfl
  rw [hdws, matchLit_self, hb1]
  have htw2 : (' ' :: (natDigits p ++ (' ' :: (strL "=====" ++ rest)))).takeWhile isWs
      = [' '] := by
    rw [List.takeWhile_cons, hwsSpace, if_pos rfl, hd, List.cons_append,
      List.takeWhile_cons, hwsD0, if_neg Bool.false_ne_true]
  have hdw2 : (' ' :: (natDigits p ++ (' ' :: (strL "=====" ++ rest)))).dropWhile isWs
      = natDigits p ++ (' ' :: (strL "=====" ++ rest)) := by
    rw [List.dropWhile_cons, hwsSpace, if_pos rfl, hd, List.cons_append,
      List.dropWhile_cons, hwsD0, if_neg Bool.false_ne_true, ← List.cons_append, ← hd]
  rw [htw2]
  rw [show (([' '] : List Char).isEmpty) = false from rfl,
    if_neg Bool.false_ne_true]
  have htds : (natDigits p ++ (' ' :: (strL "=====" ++ rest))).takeWhile isDigitC
      = natDigits p := by
    rw [takeWhileAppAll isDigitC _ (natDigits p) (natDigits_digits p),
      List.takeWhile_cons, hdgSpace, if_neg Bool.false_ne_true, List.append_nil]
  have hdds : (natDigits p ++ (' ' :: (strL "=====" ++ rest))).dropWhile isDigitC
      = ' ' :: (strL "=====" ++ rest) := by
    rw [dropWhileAppAll isDigitC _ (natDigits p) (natDigits_digits p),
      List.dropWhile_cons, hdgSpace, if_neg Bool.false_ne_true]
  rw [hdw2, htds, hdds]
  have hndE : (natDigits p).isEmpty = false := by
    rw [hd]
    rfl
  rw [hndE, if_neg Bool.false_ne_true]
  have hdw3 : (' ' :: (strL "=====" ++ rest)).dropWhile isWs = strL "=====" ++ rest := by
    rw [List.dropWhile_cons, hwsSpace, if_pos rfl]
    show ('=' :: (strL "====" ++ rest)).dropWhile isWs = _
    rw [List.dropWhile_cons, hwsEq, if_neg Bool.false_ne_true]
    rfl
  rw [hdw3, matchLit_self, hb1]
  have hnlen : (strL "=====" ++ (' ' :: (strL "PAGE" ++ (' ' :: (natDigits p
      ++ (' ' :: (strL "=====" ++ rest))))))).length
      = (markerLine p).length + rest.length := by
    rw [← hassoc, List.length_append]
  cases htl : trailLen rest with
  | none => rfl
  | some k =>
    show some (digitsVal (natDigits p),
      (strL "=====" ++ (' ' :: (strL "PAGE" ++ (' ' :: (natDigits p
        ++ (' ' :: (strL "=====" ++ rest))))))).length - rest.length + k) = _
    rw [hnlen, natDigits_val]
    have : (markerLine p).length + rest.length - rest.length + k
        = (markerLine p).length + k := by omega
    rw [this]
    rfl

/-- C7 (amended).  The page parser recognizes exactly the matches of the
marker pattern: five equals signs at a line start, optional whitespace
(which, `\s` being general whitespace, may span newlines), `PAGE`, mandatory
whitespace, a digit run, optional whitespace, five equals signs and optional
trailing whitespace up to a line end.  Every recognized region decomposes
this way — so a four-equals line such as `==== PAGE 5 ====` is never
recognized — every exact marker line is recognized, and each recognized page
number maps to the newline-trimmed text strictly between its match and the
next recognized match or the end of the input (last occurrence winning). -/
theorem page_marker_recognition :
    (∀ (s : List Char) (n len : Nat), matchMarkerAt s = some (n, len) →
      ∃ w1 w2 ds w3 w4 rest,
        s = strL "=====" ++ w1 ++ strL "PAGE" ++ w2 ++ ds ++ w3
            ++ strL "=====" ++ w4 ++ rest
        ∧ (∀ c ∈ w1, isWs c = true) ∧ w2 ≠ [] ∧ (∀ c ∈ w2, isWs c = true)
        ∧ ds ≠ [] ∧ (∀ c ∈ ds, isDigitC c = true)
        ∧ (∀ c ∈ w3, isWs c = true) ∧ (∀ c ∈ w4, isWs c = true)
        ∧ n = digitsVal ds
        ∧ len = 14 + w1.length + w2.length + ds.length + w3.length + w4.length
        ∧ (rest = [] ∨ rest.head? = some '\n'))
    ∧ (∀ p : Nat, matchMarkerAt (markerLine p) = some (p, (markerLine p).length))
    ∧ parse_pages (strL "==== PAGE 5 ====") = []
    ∧ (∀ s : List Char, parse_pages s
        = ((scanP s).2.map (fun e => (e.1, stripNL e.2))).foldl
            (fun mp e => upsert e.1 e.2 mp) []) := by
  refine ⟨fun s n len h => matchMarkerAt_sound h, fun p => ?_, by decide, fun s => rfl⟩
  have hm := matchMarkerAt_marker p []
  rw [List.append_nil] at hm
  rw [hm]
  rfl

/-- Witness for C7 at the concrete marker line `"===== PAGE 3 ====="`. -/
theorem page_marker_recognition_witness :
    ∃ w1 w2 ds w3 w4 rest,
      strL "===== PAGE 3 =====" = strL "=====" ++ w1 ++ strL "PAGE" ++ w2 ++ ds ++ w3
          ++ strL "=====" ++ w4 ++ rest
      ∧ (∀ c ∈ w1, isWs c = true) ∧ w2 ≠ [] ∧ (∀ c ∈ w2, isWs c = true)
      ∧ ds ≠ [] ∧ (∀ c ∈ ds, isDigitC c = true)
      ∧ (∀ c ∈ w3, isWs c = true) ∧ (∀ c ∈ w4, isWs c = true)
      ∧ 3 = digitsVal ds
      ∧ 18 = 14 + w1.length + w2.length + ds.length + w3.length + w4.length
      ∧ (rest = [] ∨ rest.head? = some '\n') :=
  page_marker_recognition.1 (strL "===== PAGE 3 =====") 3 18 (by decide)

/-- Counterexample to C7 as stated: `"=====PAGE 7====="` contains no line of
the exact form `===== PAGE <N> =====` (its only candidate, with digit run
`7`, is `markerLine 7 = "===== PAGE 7 ====="`, which it is not), yet the
parser recognizes it and maps page 7 to an empty body. -/
theorem page_marker_counterexample :
    parse_pages (strL "=====PAGE 7=====") = [(7, [])]
    ∧ strL "=====PAGE 7=====" ≠ markerLine 7 := by decide

/-! ## Claim C9: round trip of `harmonize` through `parse_pages` -/

/-- `scanP` with an explicit line-start flag. -/
def scanPB (s : List Char) (b : Bool) : List Char × List (Nat × List Char) :=
  scanPF s.length s b

theorem scanPF_irrel : ∀ (f g : Nat) (s : List Char) (b : Bool),
    s.length ≤ f → s.length ≤ g → scanPF f s b = scanPF g s b
  | f, g, [], b, _, _ => by cases f <;> cases g <;> rfl
  | 0, _, c :: cs, _, hf, _ => absurd hf (by simp)
  | _ + 1, 0, c :: cs, _, _, hg => absurd hg (by simp)
  | f + 1, g + 1, c :: cs, b, hf, hg => by
    have hf' : cs.length ≤ f := by simpa using hf
    have hg' : cs.length ≤ g := by simpa using hg
    cases b
    · show scanPF (f + 1) (c :: cs) false = scanPF (g + 1) (c :: cs) false
      simp only [scanPF, Bool.false_eq_true, if_false]
      rw [scanPF_irrel f g cs (decide (c = '\n')) hf' hg']
    · show scanPF (f + 1) (c :: cs) true = scanPF (g + 1) (c :: cs) true
      simp only [scanPF, if_true]
      cases hm : matchMarkerAt (c :: cs) with
      | none =>
        simp only [hm]
        rw [scanPF_irrel f g cs (decide (c = '\n')) hf' hg']
      | some nl =>
        rcases nl with ⟨n, len⟩
        have hlen := matchMarkerAtLen hm
        simp only [hm]
        rw [scanPF_irrel f g ((c :: cs).drop len) _
          (by rw [List.length_drop]; simp at hlen ⊢; omega)
          (by rw [List.length_drop]; simp at hlen ⊢; omega)]

theorem scanPB_nil (b : Bool) : scanPB [] b = ([], []) := rfl

theorem scanPB_cons_false (c : Char) (cs : List Char) :
    scanPB (c :: cs) false
      = (c :: (scanPB cs (decide (c = '\n'))).1, (scanPB cs (decide (c = '\n'))).2) := rfl

theorem scanPB_cons_nomatch {c : Char} {cs : List Char}
    (hm : matchMarkerAt (c :: cs) = none) :
    scanPB (c :: cs) true
      = (c :: (scanPB cs (decide (c = '\n'))).1, (scanPB cs (decide (c = '\n'))).2) := by
  show scanPF (cs.length + 1) (c :: cs) true = _
  simp only [scanPF, hm, if_true]
  rfl

theorem scanPB_match {s : List Char} {n len : Nat}
    (hm : matchMarkerAt s = some (n, len)) (hne : s ≠ []) :
    scanPB s true
      = ([], (n, (scanPB (s.drop len)
            (decide ((s.take len).getLast? = some '\n'))).1)
          :: (scanPB (s.drop len)
            (decide ((s.take len).getLast? = some '\n'))).2) := by
  rcases s with _ | ⟨c, cs⟩
  · exact absurd rfl hne
  have hlen := matchMarkerAtLen hm
  show scanPF (cs.length + 1) (c :: cs) true = _
  simp only [scanPF, hm, if_true]
  rw [scanPF_irrel cs.length ((c :: cs).drop len).length ((c :: cs).drop len) _
    (by rw [List.length_drop]; simp at hlen ⊢; omega) (le_refl _)]
  rfl

/-- The line-start flag after scanning past `x`, starting from flag `b`. -/
def lineFlagAfter (x : List Char) (b : Bool) : Bool :=
  x.getLast?.elim b (fun ch => decide (ch = '\n'))

theorem lineFlagAfter_nil (b : Bool) : lineFlagAfter [] b = b := rfl

theorem lineFlagAfter_cons (c : Char) (x : List Char) (b : Bool) :
    lineFlagAfter (c :: x) b = lineFlagAfter x (decide (c = '\n')) := by
  cases x with
  | nil => rfl
  | cons c2 t =>
    show ((c :: c2 :: t).getLast?).elim b _ = ((c2 :: t).getLast?).elim _ _
    rw [List.getLast?_cons_cons]
    rw [List.getLast?_eq_getLast (c2 :: t) (by simp)]
    rfl

/-- Scanning past a region whose attempted positions all fail leaves the
region as preamble text and continues behind it. -/
theorem scanSkip : ∀ (x rest : List Char) (b : Bool),
    (∀ u v, x = u ++ v → v ≠ [] → (u = [] → b = true) →
      (u ≠ [] → u.getLast? = some '\n') → matchMarkerAt (v ++ rest) = none) →
    scanPB (x ++ rest) b
      = (x ++ (scanPB rest (lineFlagAfter x b)).1, (scanPB rest (lineFlagAfter x b)).2)
  | [], rest, b, _ => by simp [lineFlagAfter_nil]
  | c :: x', rest, b, H => by
    have H' : ∀ u v, x' = u ++ v → v ≠ [] → (u = [] → decide (c = '\n') = true) →
        (u ≠ [] → u.getLast? = some '\n') → matchMarkerAt (v ++ rest) = none := by
      intro u v huv hv hu0 hul
      apply H (c :: u) v (by rw [huv]; rfl) hv (fun h => absurd h (by simp))
      intro _
      cases u with
      | nil =>
        have hc := hu0 rfl
        simp only [decide_eq_true_eq] at hc
        simp [hc]
      | cons u0 ut =>
        have := hul (by simp)
        rw [List.getLast?_cons_cons]
        exact this
    rw [List.cons_append]
    cases hb : b
    · rw [scanPB_cons_false, scanSkip x' rest (decide (c = '\n')) H', lineFlagAfter_cons]
      rfl
    · have hmnone : matchMarkerAt (c :: (x' ++ rest)) = none :=
        H [] (c :: x') rfl (by simp) (fun _ => hb) (fun hne => absurd rfl hne)
      rw [scanPB_cons_nomatch hmnone, scanSkip x' rest (decide (c = '\n')) H',
        lineFlagAfter_cons]
      rfl

/-- A newline-free literal is blocked at a newline: whatever follows the
newline cannot influence whether the literal matches. -/
theorem matchLit_blocked : ∀ (P X W1 W2 : List Char), (∀ c ∈ P, ¬ c = '\n') →
    (matchLit P (X ++ '\n' :: W1) = none ↔ matchLit P (X ++ '\n' :: W2) = none)
  | [], X, W1, W2, _ => by
    show (some (X ++ '\n' :: W1) = none) ↔ (some (X ++ '\n' :: W2) = none)
    simp
  | p :: ps, [], W1, W2, hP => by
    have hp : ¬ p = '\n' := hP p (by simp)
    rw [List.nil_append, List.nil_append]
    show (if p = '\n' then matchLit ps W1 else none) = none
      ↔ (if p = '\n' then matchLit ps W2 else none) = none
    rw [if_neg hp, if_neg hp]
  | p :: ps, x :: xs, W1, W2, hP => by
    rw [List.cons_append, List.cons_append]
    show (if p = x then matchLit ps (xs ++ '\n' :: W1) else none) = none
      ↔ (if p = x then matchLit ps (xs ++ '\n' :: W2) else none) = none
    by_cases hpx : p = x
    · rw [if_pos hpx, if_pos hpx]
      exact matchLit_blocked ps xs W1 W2 (fun c hc => hP c (by simp [hc]))
    · rw [if_neg hpx, if_neg hpx]

/-- Hypothesis on a merged body: no line start inside it begins with five
equals signs (so the marker pattern cannot fire in its interior). -/
def noEq5 (b : List Char) : Prop :=
  ∀ b₁ b₂ : List Char, b = b₁ ++ b₂ → (b₁ = [] ∨ b₁.getLast? = some '\n') →
    matchLit (strL "=====") (b₂ ++ ['\n']) = none

theorem matchMarkerAt_none_of_matchLit {s : List Char}
    (h : matchLit (strL "=====") s = none) : matchMarkerAt s = none := by
  unfold matchMarkerAt
  rw [h]
  rfl

theorem matchMarkerAt_cons_ne {c : Char} (h : ¬ c = '=') (X : List Char) :
    matchMarkerAt (c :: X) = none := by
  apply matchMarkerAt_none_of_matchLit
  show (if '=' = c then matchLit (strL "====") X else none) = none
  rw [if_neg (fun hh => h hh.symm)]

theorem noMatchInBody {b : List Char} (hok : noEq5 b) (b₁ b₂ : List Char)
    (hsplit : b = b₁ ++ b₂) (hls : b₁ = [] ∨ b₁.getLast? = some '\n')
    (W : List Char) : matchMarkerAt (b₂ ++ '\n' :: W) = none :=
  matchMarkerAt_none_of_matchLit
    ((matchLit_blocked (strL "=====") b₂ W [] (by decide)).mpr
      (hok b₁ b₂ hsplit hls))

/-- Decidable check for `noEq5`, used to discharge the hypothesis on concrete
bodies. -/
def noEq5B (b : List Char) : Bool :=
  (List.range (b.length + 1)).all fun i =>
    ((i != 0) && !((b.take i).getLast? == some '\n'))
    || (matchLit (strL "=====") (b.drop i ++ ['\n'])).isNone

theorem noEq5_of_B {b : List Char} (h : noEq5B b = true) : noEq5 b := by
  intro b₁ b₂ hsplit hls
  have hi : b₁.length < b.length + 1 := by
    rw [hsplit, List.length_append]
    omega
  have hall := List.all_eq_true.mp h b₁.length (List.mem_range.mpr hi)
  have ht : b.take b₁.length = b₁ := by
    rw [hsplit]
    exact List.take_left b₁ b₂
  have hd : b.drop b₁.length = b₂ := by
    rw [hsplit]
    exact List.drop_left b₁ b₂
  rw [ht, hd] at hall
  simp only [Bool.or_eq_true] at hall
  rcases hall with h1 | h2
  · exfalso
    simp only [Bool.and_eq_true] at h1
    rcases h1 with ⟨hne, hnl⟩
    rcases hls with hb1 | hb1
    · rw [hb1] at hne
      simp at hne
    · rw [hb1] at hnl
      simp at hnl
  · exact Option.eq_none_iff_forall_not_mem.mpr
      (fun a ha => by rw [Option.isNone_iff_eq_none.mp h2] at ha; cases ha)

/-- The merged text as a glued chain of marker-headed chunks (the second
components are the already-stripped winning bodies). -/
def glueG : List (Nat × List Char) → List Char
  | [] => []
  | [(p, b)] => markerLine p ++ '\n' :: (if b.isEmpty then [] else b ++ ['\n'])
  | (p, b) :: e :: rest => markerLine p ++ '\n' :: (b ++ '\n' :: '\n' :: glueG (e :: rest))

theorem glueG_head : ∀ (e : Nat × List Char) (rest : List (Nat × List Char)),
    ∃ t, glueG (e :: rest) = '=' :: t
  | (p, b), [] => ⟨_, rfl⟩
  | (p, b), e2 :: rest => ⟨_, rfl⟩

theorem trailLen_cons_nonws {Y : List Char} {c0 : Char}
    (hY : Y.head? = some c0) (hc : isWs c0 = false) :
    trailLen ('\n' :: Y) = some 0 := by
  rcases Y with _ | ⟨y, ys⟩
  · cases hY
  · have hy : y = c0 := by
      cases hY
      rfl
    subst hy
    unfold trailLen
    rw [List.takeWhile_cons, show isWs '\n' = true from by decide, if_pos rfl,
      List.takeWhile_cons, hc, if_neg Bool.false_ne_true,
      List.dropWhile_cons, show isWs '\n' = true from by decide, if_pos rfl,
      List.dropWhile_cons, hc, if_neg Bool.false_ne_true]
    rfl

theorem trailLen_single : trailLen ['\n'] = some 1 := by decide

theorem trailLen_three {t : List Char} :
    trailLen ('\n' :: '\n' :: '\n' :: '=' :: t) = some 2 := by
  unfold trailLen
  rw [List.takeWhile_cons, show isWs '\n' = true from by decide, if_pos rfl,
    List.takeWhile_cons, show isWs '\n' = true from by decide, if_pos rfl,
    List.takeWhile_cons, show isWs '\n' = true from by decide, if_pos rfl,
    List.takeWhile_cons, show isWs '=' = false from by decide, if_neg Bool.false_ne_true,
    List.dropWhile_cons, show isWs '\n' = true from by decide, if_pos rfl,
    List.dropWhile_cons, show isWs '\n' = true from by decide, if_pos rfl,
    List.dropWhile_cons, show isWs '\n' = true from by decide, if_pos rfl,
    List.dropWhile_cons, show isWs '=' = false from by decide, if_neg Bool.false_ne_true]
  rfl

/-- Stripping newlines from a body wrapped in newline runs recovers the
body, provided the body itself does not start or end with a newline. -/
theorem stripNL_wrap (b pre suf : List Char)
    (hpre : ∀ c ∈ pre, c = '\n') (hsuf : ∀ c ∈ suf, c = '\n')
    (hh : ∀ c, b.head? = some c → ¬ c = '\n')
    (hl : ∀ c, b.getLast? = some c → ¬ c = '\n') :
    stripNL (pre ++ b ++ suf) = b := by
  unfold stripNL
  have hpre' : ∀ c ∈ pre, (fun c => decide (c = '\n')) c = true := by
    intro c hc
    simp [hpre c hc]
  have hsuf' : ∀ c ∈ suf, (fun c => decide (c = '\n')) c = true := by
    intro c hc
    simp [hsuf c hc]
  rw [List.append_assoc, dropWhileAppAll _ _ pre hpre']
  rcases hb : b with _ | ⟨b0, bt⟩
  · rw [List.nil_append, dropWhileAll suf hsuf']
    rfl
  · have hb0 : ¬ b0 = '\n' := hh b0 (by rw [hb]; rfl)
    rw [List.cons_append, List.dropWhile_cons, if_neg (by simpa using hb0)]
    have hrevapp : (b0 :: (bt ++ suf) : List Char).reverse
        = suf.reverse ++ (b0 :: bt).reverse := by
      rw [← List.cons_append, List.reverse_append]
    rw [hrevapp]
    rw [dropWhileAppAll _ _ suf.reverse (fun c hc => by
      simp [hsuf c (List.mem_reverse.mp hc)])]
    rcases hrev : (b0 :: bt).reverse with _ | ⟨r0, rt⟩
    · exact absurd hrev (by simp)
    · have hr0lst : (b0 :: bt).getLast? = some r0 := by
        rw [← List.head?_reverse, hrev]
        rfl
      have hr0 : ¬ r0 = '\n' := hl r0 (by rw [hb]; exact hr0lst)
      rw [List.dropWhile_cons, if_neg (by simpa using hr0)]
      rw [show (r0 :: rt : List Char) = (b0 :: bt).reverse from hrev.symm,
        List.reverse_reverse]

/-- The scanSkip hypothesis holds for a gap region `'\n' ++ body ++ newline
block` whenever the body contains no interior marker start. -/
theorem skipHypGen {b : List Char} (hok : noEq5 b) (nlsrest T : List Char)
    (hnls : ∀ c ∈ ('\n' :: nlsrest : List Char), c = '\n') :
    ∀ u v, ('\n' :: (b ++ '\n' :: nlsrest) : List Char) = u ++ v → v ≠ [] →
      (u = [] → false = true) → (u ≠ [] → u.getLast? = some '\n') →
      matchMarkerAt (v ++ T) = none := by
  intro u v huv hv hu0 hul
  rcases u with _ | ⟨u0, u'⟩
  · exact absurd (hu0 rfl) (by simp)
  · rw [List.cons_append] at huv
    injection huv with h1 h2
    rcases List.append_eq_append_iff.mp h2 with ⟨a', ha1, ha2⟩ | ⟨c', hc1, hc2⟩
    · rcases v with _ | ⟨v0, vt⟩
      · exact absurd rfl hv
      · have hv0 : v0 = '\n' := by
          apply hnls
          rw [ha2]
          exact List.mem_append.mpr (Or.inr (by simp))
        rw [List.cons_append]
        subst hv0
        exact matchMarkerAt_cons_ne (by decide) _
    · have hls : u' = [] ∨ u'.getLast? = some '\n' := by
        rcases u' with _ | ⟨x, xs⟩
        · exact Or.inl rfl
        · refine Or.inr ?_
          have := hul (by simp)
          rw [List.getLast?_cons_cons] at this
          exact this
      rw [hc2, List.append_assoc, List.cons_append]
      exact noMatchInBody hok u' c' hc1 hls (nlsrest ++ T)

theorem markerLine_getLast (p : Nat) : (markerLine p).getLast? = some '=' := by
  have hform : markerLine p
      = (strL "===== PAGE " ++ natDigits p ++ strL " ====") ++ ['='] := by
    unfold markerLine
    rw [List.append_assoc, List.append_assoc, List.append_assoc]
    rfl
  rw [hform, List.getLast?_concat]

theorem glueG_ne_nil (e : Nat × List Char) (rest : List (Nat × List Char)) :
    glueG (e :: rest) ≠ [] := by
  rcases glueG_head e rest with ⟨t, ht⟩
  rw [ht]
  exact List.cons_ne_nil _ _

/-- Scanning the glue of a nonempty chunk list recovers exactly its pairs:
no preamble, and the newline-trimmed gap after each marker is its body. -/
theorem scanGlue : ∀ (pairs : List (Nat × List Char)),
    (∀ e ∈ pairs, (∀ c, e.2.head? = some c → isWs c = false)
      ∧ (∀ c, e.2.getLast? = some c → isWs c = false) ∧ noEq5 e.2) →
    pairs ≠ [] →
    (scanPB (glueG pairs) true).1 = []
    ∧ (scanPB (glueG pairs) true).2.map (fun e => (e.1, stripNL e.2)) = pairs
  | [], _, hne => absurd rfl hne
  | [(p, b)], hyp, _ => by
    rcases hyp (p, b) (by simp) with ⟨hh, hlst, h5⟩
    by_cases hbe0 : b = []
    · have hglue : glueG [(p, b)] = markerLine p ++ ['\n'] := by
        rw [hbe0]
        rfl
      have hm : matchMarkerAt (markerLine p ++ ['\n'])
          = some (p, (markerLine p).length + 1) := by
        rw [matchMarkerAt_marker p ['\n'], trailLen_single]
        rfl
      have hlen : (markerLine p ++ ['\n'] : List Char).length
          = (markerLine p).length + 1 := by
        rw [List.length_append]
        rfl
      rw [hglue, scanPB_match hm (by simp)]
      rw [List.drop_eq_nil_of_le (by rw [hlen])]
      rw [List.take_of_length_le (by rw [hlen])]
      rw [scanPB_nil]
      refine ⟨rfl, ?_⟩
      rw [hbe0]
      rfl
    · rcases List.exists_cons_of_ne_nil hbe0 with ⟨b0, bt, hbe⟩
      have hbE : b.isEmpty = false := by rw [hbe]; rfl
      have hglue : glueG [(p, b)] = markerLine p ++ '\n' :: (b ++ ['\n']) := by
        show markerLine p ++ '\n' :: (if b.isEmpty then [] else b ++ ['\n']) = _
        rw [hbE, if_neg Bool.false_ne_true]
      have hhead : (b ++ ['\n']).head? = some b0 := by
        rw [hbe]
        rfl
      have hm : matchMarkerAt (markerLine p ++ '\n' :: (b ++ ['\n']))
          = some (p, (markerLine p).length) := by
        rw [matchMarkerAt_marker p ('\n' :: (b ++ ['\n'])),
          trailLen_cons_nonws hhead (hh b0 (by rw [hbe]; rfl))]
        simp
      rw [hglue, scanPB_match hm (by simp)]
      rw [List.drop_left, List.take_left, markerLine_getLast]
      rw [show (decide ((some '=' : Option Char) = some '\n')) = false from by decide]
      have happ : ('\n' :: (b ++ ['\n']) : List Char)
          = ('\n' :: (b ++ ['\n'])) ++ [] := by
        rw [List.append_nil]
      rw [happ, scanSkip _ [] false (skipHypGen h5 [] []
        (by intro c hc; simpa using hc)), scanPB_nil, List.append_nil]
      refine ⟨rfl, ?_⟩
      have hh' : ∀ c, b.head? = some c → ¬ c = '\n' := by
        intro c hc hceq
        subst hceq
        exact absurd (hh '\n' hc) (by decide)
      have hl' : ∀ c, b.getLast? = some c → ¬ c = '\n' := by
        intro c hc hceq
        subst hceq
        exact absurd (hlst '\n' hc) (by decide)
      have hstrip : stripNL ('\n' :: (b ++ ['\n'])) = b :=
        stripNL_wrap b ['\n'] ['\n'] (by intro c hc; simpa using hc)
          (by intro c hc; simpa using hc) hh' hl'
      rw [List.map_cons, hstrip]
      rfl
  | (p, b) :: e2 :: rest, hyp, _ => by
    have hypTail : ∀ e ∈ (e2 :: rest), (∀ c, e.2.head? = some c → isWs c = false)
        ∧ (∀ c, e.2.getLast? = some c → isWs c = false) ∧ noEq5 e.2 :=
      fun e he => hyp e (by simp [he])
    have IH := scanGlue (e2 :: rest) hypTail (List.cons_ne_nil _ _)
    rcases hyp (p, b) (by simp) with ⟨hh, hlst, h5⟩
    rcases glueG_head e2 rest with ⟨t, ht⟩
    by_cases hbe0 : b = []
    · have hglue : glueG ((p, b) :: e2 :: rest)
          = markerLine p ++ '\n' :: '\n' :: '\n' :: glueG (e2 :: rest) := by
        show markerLine p ++ '\n' :: (b ++ '\n' :: '\n' :: glueG (e2 :: rest)) = _
        rw [hbe0]
        rfl
      have hm : matchMarkerAt (markerLine p ++ '\n' :: '\n' :: '\n' :: glueG (e2 :: rest))
          = some (p, (markerLine p).length + 2) := by
        rw [matchMarkerAt_marker p ('\n' :: '\n' :: '\n' :: glueG (e2 :: rest))]
        rw [show ('\n' :: '\n' :: '\n' :: glueG (e2 :: rest) : List Char)
          = '\n' :: '\n' :: '\n' :: '=' :: t from by rw [ht]]
        rw [trailLen_three]
        rfl
      rw [hglue, scanPB_match hm (by simp)]
      have hdrop : (markerLine p ++ '\n' :: '\n' :: '\n' :: glueG (e2 :: rest)).drop
          ((markerLine p).length + 2) = '\n' :: glueG (e2 :: rest) := by
        rw [List.drop_append]
        rfl
      have htake : ((markerLine p ++ '\n' :: '\n' :: '\n' :: glueG (e2 :: rest)).take
          ((markerLine p).length + 2)).getLast? = some '\n' := by
        rw [List.take_append]
        rw [show (('\n' :: '\n' :: '\n' :: glueG (e2 :: rest)).take 2) = ['\n', '\n']
          from rfl]
        rw [show (markerLine p ++ ['\n', '\n'] : List Char)
          = (markerLine p ++ ['\n']) ++ ['\n'] from by rw [List.append_assoc]; rfl]
        rw [List.getLast?_concat]
      rw [hdrop, htake]
      rw [show (decide ((some '\n' : Option Char) = some '\n')) = true from by decide]
      have hnm : matchMarkerAt ('\n' :: glueG (e2 :: rest)) = none :=
        matchMarkerAt_cons_ne (by decide) _
      rw [scanPB_cons_nomatch hnm]
      rw [show (decide (('\n' : Char) = '\n')) = true from by decide]
      rw [IH.1]
      refine ⟨rfl, ?_⟩
      rw [List.map_cons, IH.2, hbe0]
      rfl
    · rcases List.exists_cons_of_ne_nil hbe0 with ⟨b0, bt, hbe⟩
      have hglue : glueG ((p, b) :: e2 :: rest)
          = markerLine p ++ '\n' :: (b ++ '\n' :: '\n' :: glueG (e2 :: rest)) := rfl
      have hhead : (b ++ '\n' :: '\n' :: glueG (e2 :: rest)).head? = some b0 := by
        rw [hbe]
        rfl
      have hm : matchMarkerAt (markerLine p
            ++ '\n' :: (b ++ '\n' :: '\n' :: glueG (e2 :: rest)))
          = some (p, (markerLine p).length) := by
        rw [matchMarkerAt_marker p ('\n' :: (b ++ '\n' :: '\n' :: glueG (e2 :: rest))),
          trailLen_cons_nonws hhead (hh b0 (by rw [hbe]; rfl))]
        simp
      rw [hglue, scanPB_match hm (by simp)]
      rw [List.drop_left, List.take_left, markerLine_getLast]
      rw [show (decide ((some '=' : Option Char) = some '\n')) = false from by decide]
      have hsplit2 : ('\n' :: (b ++ '\n' :: '\n' :: glueG (e2 :: rest)) : List Char)
          = ('\n' :: (b ++ ['\n', '\n'])) ++ glueG (e2 :: rest) := by
        rw [List.cons_append, List.append_assoc]
        rfl
      rw [hsplit2, scanSkip _ _ false (skipHypGen h5 ['\n'] (glueG (e2 :: rest))
        (by
        intro c hc
        rcases List.mem_cons.mp hc with h | h
        · exact h
        · simpa using h))]
      have hflag : lineFlagAfter ('\n' :: (b ++ ['\n', '\n'])) false = true := by
        unfold lineFlagAfter
        rw [show ('\n' :: (b ++ ['\n', '\n']) : List Char)
          = ('\n' :: (b ++ ['\n'])) ++ ['\n'] from by
            rw [List.cons_append, List.append_assoc]
            rfl]
        rw [List.getLast?_concat]
        rfl
      rw [hflag, IH.1, List.append_nil]
      refine ⟨rfl, ?_⟩
      have hh' : ∀ c, b.head? = some c → ¬ c = '\n' := by
        intro c hc hceq
        subst hceq
        exact absurd (hh '\n' hc) (by decide)
      have hl' : ∀ c, b.getLast? = some c → ¬ c = '\n' := by
        intro c hc hceq
        subst hceq
        exact absurd (hlst '\n' hc) (by decide)
      have hstrip : stripNL ('\n' :: (b ++ ['\n', '\n'])) = b :=
        stripNL_wrap b ['\n'] ['\n', '\n'] (by intro c hc; simpa using hc)
          (by
        intro c hc
        rcases List.mem_cons.mp hc with h | h
        · exact h
        · simpa using h) hh' hl'
      rw [List.map_cons, hstrip, IH.2]

theorem dropWhileAppKeep {α : Type} (p : α → Bool) (B : List α) :
    ∀ (A : List α), (∃ a ∈ A, p a = false) →
      (A ++ B).dropWhile p = A.dropWhile p ++ B
  | [], h => by
    rcases h with ⟨a, ha, -⟩
    cases ha
  | a0 :: A', h => by
    rw [List.cons_append, List.dropWhile_cons, List.dropWhile_cons]
    cases hp : p a0
    · rw [if_neg Bool.false_ne_true, if_neg Bool.false_ne_true, List.cons_append]
    · rw [if_pos rfl, if_pos rfl]
      apply dropWhileAppKeep p B A'
      rcases h with ⟨a, ha, hpa⟩
      rcases List.mem_cons.mp ha with rfl | ha'
      · rw [hp] at hpa
        cases hpa
      · exact ⟨a, ha', hpa⟩

theorem rstripAppKeep {X Y : List Char} (h : ∃ y ∈ Y, isWs y = false) :
    rstripWs (X ++ Y) = X ++ rstripWs Y := by
  unfold rstripWs
  rw [List.reverse_append]
  rw [dropWhileAppKeep isWs X.reverse Y.reverse
    (by rcases h with ⟨y, hy, hpy⟩; exact ⟨y, List.mem_reverse.mpr hy, hpy⟩)]
  rw [List.reverse_append, List.reverse_reverse]

theorem rstripAppWs {X wsl : List Char} (h : ∀ c ∈ wsl, isWs c = true) :
    rstripWs (X ++ wsl) = rstripWs X := by
  unfold rstripWs
  rw [List.reverse_append]
  rw [dropWhileAppAll isWs X.reverse wsl.reverse
    (fun c hc => h c (List.mem_reverse.mp hc))]

theorem rstripIdOfLast {X : List Char} {c : Char}
    (h : X.getLast? = some c) (hc : isWs c = false) : rstripWs X = X := by
  unfold rstripWs
  rcases hrev : X.reverse with _ | ⟨r0, rt⟩
  · rw [List.dropWhile_nil]
    rw [← List.reverse_reverse X, hrev]
  · have hr0 : X.getLast? = some r0 := by
      rw [← List.head?_reverse, hrev]
      rfl
    have : r0 = c := by
      rw [hr0] at h
      cases h
      rfl
    subst this
    rw [List.dropWhile_cons, hc, if_neg Bool.false_ne_true, ← hrev,
      List.reverse_reverse]

theorem getLastApp (A : List Char) {B : List Char} (hB : B ≠ []) :
    (A ++ B).getLast? = B.getLast? := by
  rw [← List.head?_reverse, List.reverse_append,
    List.head?_append_of_ne_nil _ (by simpa using hB), List.head?_reverse]

theorem lstripId {X : List Char} {c : Char}
    (h : X.head? = some c) (hc : isWs c = false) : lstripWs X = X := by
  rcases X with _ | ⟨x, xs⟩
  · cases h
  · have : x = c := by
      cases h
      rfl
    subst this
    unfold lstripWs
    rw [List.dropWhile_cons, hc, if_neg Bool.false_ne_true]

/-- `"\n".join(chunks).strip() + "\n"` equals the glue chain, chunk heads
being marker lines and bodies being stripped. -/
theorem stripJoin_glue : ∀ (pairs : List (Nat × List Char)),
    (∀ e ∈ pairs, (∀ c, e.2.head? = some c → isWs c = false)
      ∧ (∀ c, e.2.getLast? = some c → isWs c = false)) →
    pairs ≠ [] →
    stripWs (joinNL (pairs.map
        (fun e => markerLine e.1 ++ '\n' :: (e.2 ++ ['\n'])))) ++ ['\n']
      = glueG pairs
  | [], _, hne => absurd rfl hne
  | [(p, b)], hyp, _ => by
    rcases hyp (p, b) (by simp) with ⟨hh, hlst⟩
    show stripWs (markerLine p ++ '\n' :: (b ++ ['\n'])) ++ ['\n'] = _
    unfold stripWs
    rw [lstripId (show (markerLine p ++ '\n' :: (b ++ ['\n'])).head? = some '='
      from rfl) (by decide)]
    by_cases hbe0 : b = []
    · subst hbe0
      rw [show (markerLine p ++ '\n' :: ([] ++ ['\n']) : List Char)
        = markerLine p ++ ['\n', '\n'] from rfl]
      rw [rstripAppWs (by
        intro c hc
        rcases List.mem_cons.mp hc with h | h
        · subst h; decide
        · rcases List.mem_singleton.mp h with rfl; decide)]
      rw [rstripIdOfLast (markerLine_getLast p) (by decide)]
      rfl
    · rcases List.exists_cons_of_ne_nil hbe0 with ⟨b0, bt, hbe⟩
      have hXl : (markerLine p ++ '\n' :: b).getLast? = b.getLast? := by
        rw [getLastApp _ (List.cons_ne_nil _ _), hbe, List.getLast?_cons_cons]
      have hglast : ∃ g, b.getLast? = some g ∧ isWs g = false := by
        rcases hgl : b.getLast? with _ | g
        · rw [List.getLast?_eq_none_iff] at hgl
          exact absurd hgl hbe0
        · exact ⟨g, rfl, hlst g hgl⟩
      rcases hglast with ⟨g, hg1, hg2⟩
      rw [show (markerLine p ++ '\n' :: (b ++ ['\n']) : List Char)
        = (markerLine p ++ '\n' :: b) ++ ['\n'] from by
          rw [List.append_assoc]
          rfl]
      rw [rstripAppWs (by intro c hc; rcases List.mem_singleton.mp hc with rfl; decide)]
      rw [rstripIdOfLast (by rw [hXl]; exact hg1) hg2]
      show markerLine p ++ '\n' :: b ++ ['\n'] = markerLine p ++ '\n' :: (if b.isEmpty then [] else b ++ ['\n'])
      rw [show b.isEmpty = false from by rw [hbe]; rfl, if_neg Bool.false_ne_true,
        List.append_assoc]
      rfl
  | (p, b) :: e2 :: rest, hyp, _ => by
    have hypTail : ∀ e ∈ (e2 :: rest), (∀ c, e.2.head? = some c → isWs c = false)
        ∧ (∀ c, e.2.getLast? = some c → isWs c = false) :=
      fun e he => hyp e (by simp [he])
    have IH := stripJoin_glue (e2 :: rest) hypTail (List.cons_ne_nil _ _)
    show stripWs ((markerLine p ++ '\n' :: (b ++ ['\n']))
        ++ '\n' :: joinNL ((e2 :: rest).map
          (fun e => markerLine e.1 ++ '\n' :: (e.2 ++ ['\n'])))) ++ ['\n'] = _
    have hJhead : ∃ t, joinNL ((e2 :: rest).map
        (fun e => markerLine e.1 ++ '\n' :: (e.2 ++ ['\n']))) = '=' :: t := by
      rcases rest with _ | ⟨e3, rest2⟩
      · exact ⟨_, rfl⟩
      · exact ⟨_, rfl⟩
    rcases hJhead with ⟨t, hJ⟩
    have hIH2 : rstripWs (joinNL ((e2 :: rest).map
        (fun e => markerLine e.1 ++ '\n' :: (e.2 ++ ['\n'])))) ++ ['\n']
        = glueG (e2 :: rest) := by
      have hls : lstripWs (joinNL ((e2 :: rest).map
          (fun e => markerLine e.1 ++ '\n' :: (e.2 ++ ['\n']))))
          = joinNL ((e2 :: rest).map
            (fun e => markerLine e.1 ++ '\n' :: (e.2 ++ ['\n']))) :=
        lstripId (show (joinNL ((e2 :: rest).map
          (fun e => markerLine e.1 ++ '\n' :: (e.2 ++ ['\n'])))).head? = some '='
            from by rw [hJ]; rfl) (by decide)
      rw [← hls]
      exact IH
    unfold stripWs
    rw [lstripId (show ((markerLine p ++ '\n' :: (b ++ ['\n']))
        ++ '\n' :: joinNL ((e2 :: rest).map
          (fun e => markerLine e.1 ++ '\n' :: (e.2 ++ ['\n'])))).head? = some '='
        from rfl) (by decide)]
    rw [show ((markerLine p ++ '\n' :: (b ++ ['\n']))
        ++ '\n' :: joinNL ((e2 :: rest).map
          (fun e => markerLine e.1 ++ '\n' :: (e.2 ++ ['\n']))))
        = ((markerLine p ++ '\n' :: (b ++ ['\n'])) ++ ['\n'])
          ++ joinNL ((e2 :: rest).map
            (fun e => markerLine e.1 ++ '\n' :: (e.2 ++ ['\n'])))
        from by simp [List.append_assoc]]
    rw [rstripAppKeep ⟨'=', by rw [hJ]; simp, by decide⟩]
    simp only [List.append_assoc]
    rw [hIH2]
    rw [show glueG ((p, b) :: e2 :: rest)
      = markerLine p ++ '\n' :: (b ++ '\n' :: '\n' :: glueG (e2 :: rest)) from rfl]
    simp [List.append_assoc]


/-- The head of a `dropWhile` never satisfies the predicate. -/
theorem dropWhileHeadNot {p : Char → Bool} : ∀ {l : List Char} {c : Char},
    (l.dropWhile p).head? = some c → p c = false
  | [], _, h => by cases h
  | a :: l, c, h => by
    rw [List.dropWhile_cons] at h
    by_cases hpa : p a = true
    · rw [if_pos hpa] at h
      exact dropWhileHeadNot h
    · rw [if_neg hpa] at h
      injection h with h2
      rw [← h2]
      exact Bool.eq_false_iff.mpr hpa

/-- A stripped string never starts with whitespace. -/
theorem stripWs_head {s : List Char} {c : Char}
    (h : (stripWs s).head? = some c) : isWs c = false := by
  have hsplit : (lstripWs s).reverse.takeWhile isWs
      ++ (lstripWs s).reverse.dropWhile isWs = (lstripWs s).reverse := by
    rw [List.takeWhile_append_dropWhile]
  rcases hD : (lstripWs s).reverse.dropWhile isWs with _ | ⟨d0, dt⟩
  · have hnil : stripWs s = [] := by
      show rstripWs (lstripWs s) = []
      unfold rstripWs
      rw [hD]
      rfl
    rw [hnil] at h
    cases h
  · have hDrev : ((d0 :: dt) : List Char).reverse ≠ [] := by
      simp
    have hls : lstripWs s = (d0 :: dt).reverse
        ++ ((lstripWs s).reverse.takeWhile isWs).reverse := by
      rw [← List.reverse_append, ← hD, hsplit, List.reverse_reverse]
    have h1 : (stripWs s).head? = (lstripWs s).head? := by
      show (rstripWs (lstripWs s)).head? = _
      unfold rstripWs
      rw [hD]
      conv_rhs => rw [hls]
      rw [List.head?_append_of_ne_nil _ hDrev]
    rw [h1] at h
    exact dropWhileHeadNot h

/-- A stripped string never ends with whitespace. -/
theorem stripWs_getLast {s : List Char} {c : Char}
    (h : (stripWs s).getLast? = some c) : isWs c = false := by
  have h1 : (stripWs s).getLast? = ((lstripWs s).reverse.dropWhile isWs).head? := by
    show (rstripWs (lstripWs s)).getLast? = _
    unfold rstripWs
    rw [← List.head?_reverse, List.reverse_reverse]
  rw [h1] at h
  exact dropWhileHeadNot h

/-- Inserting an absent key appends it. -/
theorem upsert_absent : ∀ (acc : List (Nat × List Char)) (k : Nat) (v : List Char),
    (∀ e ∈ acc, e.1 ≠ k) → upsert k v acc = acc ++ [(k, v)]
  | [], _, _, _ => rfl
  | (a, b) :: r, k, v, h => by
    have ha : a ≠ k := h (a, b) (List.mem_cons_self _ _)
    unfold upsert
    rw [if_neg ha, upsert_absent r k v (fun e he => h e (List.mem_cons_of_mem _ he))]
    rfl

/-- Building a dict from bindings with pairwise-distinct keys keeps them all,
in order. -/
theorem foldl_upsert_id : ∀ (l acc : List (Nat × List Char)),
    ((acc ++ l).map Prod.fst).Nodup →
    l.foldl (fun m e => upsert e.1 e.2 m) acc = acc ++ l
  | [], acc, _ => by rw [List.foldl_nil, List.append_nil]
  | (k, v) :: r, acc, h => by
    have hk : ∀ e ∈ acc, e.1 ≠ k := by
      intro e he hek
      rw [List.map_append] at h
      rcases List.nodup_append.mp h with ⟨_, _, hdisj⟩
      exact hdisj (List.mem_map_of_mem Prod.fst he)
        (by rw [hek]; exact List.mem_map_of_mem Prod.fst (List.mem_cons_self _ _))
    have h2 : (((acc ++ [(k, v)]) ++ r).map Prod.fst).Nodup := by
      rw [List.append_assoc]
      exact h
    rw [List.foldl_cons]
    rw [upsert_absent acc k v hk]
    rw [foldl_upsert_id r (acc ++ [(k, v)]) h2]
    rw [List.append_assoc]
    rfl

/-- A full line of the exact page-marker form: the marker pattern matches and
consumes the whole line. -/
def lineIsMarker (l : List Char) : Bool :=
  match matchMarkerAt l with
  | some r => decide (r.2 = l.length)
  | none => false

/-- A text contains a line matching the page-marker form. -/
def hasMarkerLine (t : List Char) : Bool :=
  (splitlines t).any lineIsMarker

/-- C9. Round-trip: for every pair of input page maps in which no line start
inside any winning page's trimmed text begins with five equals signs (so no
marker pattern, which may span lines, can fire inside a body), parsing the
harmonizer's merged text yields exactly one binding per page of the sorted
union of the input keys, mapping each page to the whitespace-trimmed text of
its winning transcription. -/
theorem harmonize_parse_roundtrip (m d : List (Nat × List Char))
    (H : ∀ p ∈ allPages m d, noEq5 (stripWs (chosenTextOf m d p))) :
    parse_pages (harmonize m d).harmonized_text
      = (allPages m d).map (fun p => (p, stripWs (chosenTextOf m d p))) := by
  have hmt : (harmonize m d).harmonized_text
      = stripWs (joinNL ((allPages m d).map (chunkOf m d))) ++ ['\n'] := rfl
  by_cases hpe : allPages m d = []
  · rw [hmt, hpe]
    rfl
  · rcases List.exists_cons_of_ne_nil hpe with ⟨p0, ps, hcons⟩
    have hne : (allPages m d).map (fun p => (p, stripWs (chosenTextOf m d p))) ≠ [] := by
      rw [hcons]
      exact List.cons_ne_nil _ _
    have hhyp : ∀ e ∈ (allPages m d).map (fun p => (p, stripWs (chosenTextOf m d p))),
        (∀ c, e.2.head? = some c → isWs c = false)
        ∧ (∀ c, e.2.getLast? = some c → isWs c = false) ∧ noEq5 e.2 := by
      intro e he
      rcases List.mem_map.mp he with ⟨p, hp, rfl⟩
      exact ⟨fun c hc => stripWs_head hc, fun c hc => stripWs_getLast hc, H p hp⟩
    have hchunks : (allPages m d).map (chunkOf m d)
        = ((allPages m d).map (fun p => (p, stripWs (chosenTextOf m d p)))).map
            (fun e => markerLine e.1 ++ '\n' :: (e.2 ++ ['\n'])) := by
      rw [List.map_map]
      rfl
    have hglue : (harmonize m d).harmonized_text
        = glueG ((allPages m d).map (fun p => (p, stripWs (chosenTextOf m d p)))) := by
      rw [hmt, hchunks]
      exact stripJoin_glue _ (fun e he => ⟨(hhyp e he).1, (hhyp e he).2.1⟩) hne
    have hscan := scanGlue _ hhyp hne
    have hnd : ((([] : List (Nat × List Char))
        ++ (allPages m d).map (fun p => (p, stripWs (chosenTextOf m d p)))).map
          Prod.fst).Nodup := by
      rw [List.nil_append, List.map_map]
      rw [show (Prod.fst ∘ fun p => ((p, stripWs (chosenTextOf m d p)) : Nat × List Char))
          = id from rfl]
      rw [List.map_id]
      exact allPages_nodup m d
    rw [hglue]
    have hpp : parse_pages
        (glueG ((allPages m d).map (fun p => (p, stripWs (chosenTextOf m d p)))))
        = (((scanPB (glueG ((allPages m d).map
              (fun p => (p, stripWs (chosenTextOf m d p))))) true).2.map
            (fun e => (e.1, stripNL e.2))).foldl (fun mm e => upsert e.1 e.2 mm) []) := rfl
    rw [hpp, hscan.2, foldl_upsert_id _ [] hnd]
    rfl

/-- Witness for C9: a concrete run where the hypothesis holds and the
round-trip returns the single stripped winning text. -/
theorem harmonize_parse_roundtrip_witness :
    parse_pages (harmonize [(1, strL "Hello")] []).harmonized_text
      = [(1, strL "Hello")] := by
  have hrt := harmonize_parse_roundtrip [(1, strL "Hello")] [] (by
    intro p hp
    rw [show allPages [(1, strL "Hello")] [] = [1] from by decide] at hp
    rcases List.mem_singleton.mp hp with rfl
    exact noEq5_of_B (by decide))
  rw [hrt]
  decide

/-- Counterexample to C9 as stated: the winning text
`"=====\nPAGE 3 ====="` contains no line matching the page-marker form, yet
the marker regex fires across its two lines in the merged output, so the
parse of the round-trip has key set `{1, 3}` instead of `{1}` and page 1 no
longer maps to the trimmed winning text. -/
theorem harmonize_parse_roundtrip_counterexample :
    allPages [(1, strL "=====\nPAGE 3 =====")] [] = [1]
    ∧ hasMarkerLine (chosenTextOf [(1, strL "=====\nPAGE 3 =====")] [] 1) = false
    ∧ parse_pages (harmonize [(1, strL "=====\nPAGE 3 =====")] []).harmonized_text
        = [(1, []), (3, [])]
    ∧ (allPages [(1, strL "=====\nPAGE 3 =====")] []).map
        (fun p => (p, stripWs (chosenTextOf [(1, strL "=====\nPAGE 3 =====")] [] p)))
        = [(1, strL "=====\nPAGE 3 =====")] := by
  refine ⟨by decide, by decide, ?_, by decide⟩
  decide

end Harmonize
